import Mathlib

/-!
Verification of the eyros storage core (src/block_cache.rs, src/data.rs).

The Rust source is shallowly embedded: bytes are `Nat` (values < 256 where
produced by the code), byte buffers are `List Nat`, the backing
random-access storage (an external collaborator, spec §6) is an in-memory
byte list, and the two LRU caches are modelled as association lists keyed
by offset (the LRU capacity bound only evicts entries, which the cache
lookup code treats the same as a miss; eviction order is not needed by any
claim, so the maps are modelled unbounded).  Rust `HashMap` iteration
order is unspecified; functions that iterate a `HashMap` are therefore
parameterized by the entry order where it matters (`BlockCache.commitWith`).
Fallible Rust paths (`ensure!`/`bail!`/`?`, and the one `panic!`) return
`Except DErr`/`Option`; state mutations made before a failure are kept, as
with `&mut self` in the source.
-/

namespace Eyros

/-- Write `d` over `l` starting at index `off`, clipping to `l`'s extent
(the Rust slice-assignments this models are always in bounds). -/
def setSlice {α : Type} (l : List α) (off : Nat) (d : List α) : List α :=
  l.take off ++ d.take (l.length - off) ++ l.drop (off + d.length)

/-- Association-list lookup, modelling `HashMap::get` / `LruCache::get`. -/
def alistGet {α : Type} (l : List (Nat × α)) (k : Nat) : Option α :=
  (l.find? (fun e => e.1 == k)).map (·.2)

/-- Remove a key, modelling `HashMap::remove` / `LruCache::pop`. -/
def alistRemove {α : Type} (l : List (Nat × α)) (k : Nat) : List (Nat × α) :=
  l.filter (fun e => e.1 != k)

/-- Insert/replace a key, modelling `HashMap::insert` / `LruCache::put`. -/
def alistPut {α : Type} (l : List (Nat × α)) (k : Nat) (v : α) : List (Nat × α) :=
  (k, v) :: alistRemove l k

/-- Bit `i` of a byte buffer: `(mask[i/8] >> (i%8)) & 1 == 1`. -/
def getBitB (mask : List Nat) (i : Nat) : Bool :=
  ((mask.getD (i / 8) 0) >>> (i % 8)) &&& 1 == 1

/-- Set bit `i` of a byte buffer: `mask[i/8] |= 1 << (i%8)`. -/
def setBitB (mask : List Nat) (i : Nat) : List Nat :=
  mask.set (i / 8) ((mask.getD (i / 8) 0) ||| (1 <<< (i % 8)))

/-! ## Block (src/block_cache.rs lines 6-76) -/

/-- `Block`: fixed-size byte buffer, bit-per-byte presence mask, count of
still-missing bytes. -/
structure Block where
  data : List Nat
  mask : List Nat
  missing : Nat
  deriving Repr, DecidableEq

/-- `Block::new(size)`. -/
def Block.new (size : Nat) : Block :=
  ⟨List.replicate size 0, List.replicate ((size + 7) / 8) 0, size⟩

/-- `Block::from_data(data)`: zero mask, `missing = 0`. -/
def Block.from_data (data : List Nat) : Block :=
  ⟨data, List.replicate ((data.length + 7) / 8) 0, 0⟩

/-- The mask/missing update loop of `Block::write`: marks `c` bits starting
at index `i`, decrementing `missing` for each previously unset bit (guarded
by `missing > 0` as in the source). -/
def Block.markLoop : Block → Nat → Nat → Block
  | b, _, 0 => b
  | b, i, c + 1 =>
    let m := getBitB b.mask i
    let missing2 := if !m && decide (b.missing > 0) then b.missing - 1 else b.missing
    Block.markLoop ⟨b.data, setBitB b.mask i, missing2⟩ (i + 1) c

/-- `Block::write(offset, data)`. -/
def Block.write (b : Block) (offset : Nat) (d : List Nat) : Block :=
  Block.markLoop ⟨setSlice b.data offset d, b.mask, b.missing⟩ offset d.length

/-- The loop of `Block::merge`: for each byte of `d` whose mask bit is
unset, copy it into `data` and decrement `missing` (the mask bit itself is
left unset, as in the source). -/
def Block.mergeLoop : Block → List Nat → Nat → Block
  | b, [], _ => b
  | b, x :: rest, i =>
    let b2 := if getBitB b.mask i then b else ⟨b.data.set i x, b.mask, b.missing - 1⟩
    Block.mergeLoop b2 rest (i + 1)

/-- `Block::merge(data)`. -/
def Block.merge (b : Block) (d : List Nat) : Block :=
  Block.mergeLoop b d 0

/-- The scan of `Block::have_all` over `[i, j)`. -/
def Block.allBits (mask : List Nat) (i j : Nat) : Bool :=
  (List.range' i (j - i)).all (fun k => getBitB mask k)

/-- `Block::have_all(i, j)`: true if `missing == 0`, else iff every bit in
`[i, j)` is set. -/
def Block.have_all (b : Block) (i j : Nat) : Bool :=
  b.missing == 0 || Block.allBits b.mask i j

/-- The scan loop of `Block::writes`, carrying `(i, remaining, offset,
prev, acc)` exactly as the source carries `(i, offset, prev, result)`. -/
def Block.writesLoop (data mask : List Nat) : Nat → Nat → Nat → Bool →
    List (Nat × List Nat) → List (Nat × List Nat)
  | _, 0, offset, prev, acc =>
    if prev && decide (offset < data.length) then acc ++ [(offset, data.drop offset)] else acc
  | i, c + 1, offset, prev, acc =>
    let m := getBitB mask i
    if m && !prev then Block.writesLoop data mask (i + 1) c i m acc
    else if !m && prev then
      Block.writesLoop data mask (i + 1) c offset m
        (acc ++ [(offset, (data.drop offset).take (i - offset))])
    else Block.writesLoop data mask (i + 1) c offset m acc

/-- `Block::writes()`: the whole buffer if fully known, else the maximal
contiguous masked sub-ranges. -/
def Block.writes (b : Block) : List (Nat × List Nat) :=
  if b.missing == 0 then [(0, b.data)]
  else Block.writesLoop b.data b.mask 0 b.data.length 0 false []

/-! ## Backing store (external `RandomAccess` collaborator, spec §6) -/

/-- In-memory model of the backing random-access store: a flat byte list.
`write` past the end zero-pads the gap; the block cache only issues
in-bounds reads (it clips to `len`), so `read` is the plain sub-slice. -/
structure Store where
  bytes : List Nat
  deriving Repr, DecidableEq

/-- `store.len()`. -/
def Store.len (s : Store) : Nat := s.bytes.length

/-- `store.read(offset, length)` (the cache layer always calls it with
`offset + length ≤ len`). -/
def Store.read (s : Store) (offset length : Nat) : List Nat :=
  (s.bytes.drop offset).take length

/-- `store.write(offset, data)`: overwrite in place, extending (zero-padded)
when the write reaches past the current end. -/
def Store.write (s : Store) (offset : Nat) (data : List Nat) : Store :=
  let padded := s.bytes ++ List.replicate ((offset + data.length) - s.bytes.length) 0
  ⟨padded.take offset ++ data ++ padded.drop (offset + data.length)⟩

/-! ## BlockCache (src/block_cache.rs lines 78-247) -/

/-- `BlockCache`: backing store, block size, LRU read cache and pending
write map keyed by block-aligned offset. -/
structure BlockCache where
  store : Store
  size : Nat
  reads : List (Nat × Block)
  writes : List (Nat × Block)
  deriving Repr, DecidableEq

/-- `BlockCache::new(store, size, count)` (the read-LRU capacity `count`
only bounds eviction and is not modelled). -/
def BlockCache.new (store : Store) (size : Nat) : BlockCache :=
  ⟨store, size, [], []⟩

/-- One segment of `BlockCache::write`: write `slice` at local offset
`b_start` of block `b` — into the pending write-block if present, else
into a read-cache block popped and promoted (raw data copy, mask
untouched), else into a fresh `Block`. -/
def BlockCache.writeSeg (st : BlockCache) (b b_start : Nat) (slice : List Nat) : BlockCache :=
  match alistGet st.writes b with
  | some block => { st with writes := alistPut st.writes b (block.write b_start slice) }
  | none =>
    match alistGet st.reads b with
    | some block =>
      { st with
        reads := alistRemove st.reads b,
        writes := alistPut st.writes b
          ⟨setSlice block.data b_start slice, block.mask, block.missing⟩ }
    | none => { st with writes := alistPut st.writes b ((Block.new st.size).write b_start slice) }

/-- The `for i in start..end` loop of `BlockCache::write`, carrying
`(i, remaining, d_start)`. -/
def BlockCache.writeLoop (offset : Nat) (data : List Nat) :
    Nat → Nat → Nat → BlockCache → BlockCache
  | _, 0, _, st => st
  | i, c + 1, d_start, st =>
    let b := i * st.size
    let b_start := offset.max b - b
    let b_len := ((offset + data.length) - b).min ((st.size - b_start).min data.length)
    let slice := (data.drop d_start).take b_len
    BlockCache.writeLoop offset data (i + 1) c (d_start + b_len) (st.writeSeg b b_start slice)

/-- `BlockCache::write(offset, data)`. -/
def BlockCache.write (st : BlockCache) (offset : Nat) (data : List Nat) : BlockCache :=
  let start := offset / st.size
  let stop := (offset + data.length + st.size - 1) / st.size
  BlockCache.writeLoop offset data start (stop - start) 0 st

/-- First loop of `BlockCache::read`: per block segment, copy from a fully
known pending write-block or from the read cache, else queue a physical
fetch (flag true = must merge into the write-block). Returns the partially
filled result and the fetch queue. -/
def BlockCache.readLoop1 (st : BlockCache) (offset length : Nat) :
    Nat → Nat → Nat → List Nat → List (Nat × (Nat × Nat) × Bool) →
    List Nat × List (Nat × (Nat × Nat) × Bool)
  | _, 0, _, result, reads => (result, reads)
  | i, c + 1, result_i, result, reads =>
    let b := i * st.size
    let b_start := offset.max b - b
    let b_len := ((offset + length) - b).min ((st.size - b_start).min length)
    let b_end := b_start + b_len
    let range : Nat × Nat := (result_i, result_i + b_len)
    match alistGet st.writes b with
    | some block =>
      if block.have_all b_start b_end then
        BlockCache.readLoop1 st offset length (i + 1) c (result_i + b_len)
          (setSlice result range.1 ((block.data.drop b_start).take b_len)) reads
      else
        BlockCache.readLoop1 st offset length (i + 1) c (result_i + b_len) result
          (reads ++ [(b, range, true)])
    | none =>
      match alistGet st.reads b with
      | some rblock =>
        BlockCache.readLoop1 st offset length (i + 1) c (result_i + b_len)
          (setSlice result range.1 ((rblock.data.drop b_start).take b_len)) reads
      | none =>
        BlockCache.readLoop1 st offset length (i + 1) c (result_i + b_len) result
          (reads ++ [(b, range, false)])

/-- Second loop of `BlockCache::read`: redistribute the single fetched
span to each queued block; flagged segments merge into the write-block
(the `None` arm is the source's `panic!`, modelled as `none`), unflagged
segments build a zero-padded read-cache block. -/
def BlockCache.readLoop2 (offset length i0 : Nat) (data : List Nat) :
    List (Nat × (Nat × Nat) × Bool) → List Nat → BlockCache →
    Option (List Nat × BlockCache)
  | [], result, st => some (result, st)
  | (b, range, w) :: rest, result, st =>
    let len := data.length
    let d_start := (b - i0).min len
    let d_end := (d_start + st.size).min len
    let slice := (data.drop d_start).take (d_end - d_start)
    let b_start := offset.max b - b
    let b_len := ((offset + length) - b).min ((st.size - b_start).min length)
    if w then
      match alistGet st.writes b with
      | some block =>
        let block2 := block.merge slice
        BlockCache.readLoop2 offset length i0 data rest
          (setSlice result range.1 ((block2.data.drop b_start).take b_len))
          { st with writes := alistPut st.writes b block2 }
      | none => none
    else
      let vdata := slice ++ List.replicate (st.size - slice.length) 0
      let block := Block.from_data vdata
      BlockCache.readLoop2 offset length i0 data rest
        (setSlice result range.1 ((block.data.drop b_start).take b_len))
        { st with reads := alistPut st.reads b block }

/-- `BlockCache::read(offset, length)`. -/
def BlockCache.read (st : BlockCache) (offset length : Nat) :
    Option (List Nat × BlockCache) :=
  let start := offset / st.size
  let stop := (offset + length + st.size - 1) / st.size
  let p := BlockCache.readLoop1 st offset length start (stop - start) 0
    (List.replicate length 0) []
  if p.2.isEmpty then some (p.1, st)
  else
    let len := st.store.len
    let i := (p.2.headD (0, (0, 0), false)).1.min len
    let j := ((p.2.getLastD (0, (0, 0), false)).1 + st.size).min len
    let data := if j > i then st.store.read i (j - i) else []
    BlockCache.readLoop2 offset length i data p.2 p.1 st

/-- One pending block's contribution to the physical write list built by
`BlockCache::commit`: its coalesced sub-ranges, where a sub-range at local
offset 0 is appended to the previously emitted write (unconditionally —
the source checks only `i == 0`, not block adjacency) and every other
sub-range starts a new write at `b + i`. -/
def BlockCache.commitStep (plan : List (Nat × List Nat)) (b : Nat) (block : Block) :
    List (Nat × List Nat) :=
  if plan.isEmpty then block.writes.map (fun s => (s.1 + b, s.2))
  else
    block.writes.foldl (fun acc s =>
      if s.1 = 0 then
        acc.dropLast ++ [((acc.getLastD (0, [])).1, (acc.getLastD (0, [])).2 ++ s.2)]
      else acc ++ [(s.1 + b, s.2)]) plan

/-- The full physical write list `BlockCache::commit` builds from the
pending write-blocks, in the given iteration order. -/
def BlockCache.commitPlan (entries : List (Nat × Block)) : List (Nat × List Nat) :=
  entries.foldl (fun plan e => BlockCache.commitStep plan e.1 e.2) []

/-- `BlockCache::commit`, with the `HashMap` iteration order (which Rust
leaves unspecified) made explicit as `entries`: promote every pending
block into the read cache, build the coalesced write list, clear the
pending map, and issue the physical writes. -/
def BlockCache.commitWith (st : BlockCache) (entries : List (Nat × Block)) : BlockCache :=
  let reads2 := entries.foldl (fun r e => alistPut r e.1 e.2) st.reads
  let plan := BlockCache.commitPlan entries
  let store2 := plan.foldl (fun s w => s.write w.1 w.2) st.store
  { st with store := store2, reads := reads2, writes := [] }

/-- `BlockCache::commit` at one possible `HashMap` iteration order (the
model's association list holds most-recently-inserted entries first). -/
def BlockCache.commit (st : BlockCache) : BlockCache :=
  st.commitWith st.writes

/-! ## Point / Value / codec instantiation (external collaborators)

The `Point`, `Value` and `bincode` contracts are out of scope of the core
(spec §1, §6); the data store is generic over them.  They are instantiated
here with the simplest concrete model satisfying §6: a one-dimensional
point and an opaque value, each one byte (`Fin 256`), with a
self-describing one-byte encoding, `bounds` = min/max over a non-empty
set (none for the empty set), and `Range` = the bounds pair itself. -/

/-- Point type instance: a one-byte one-dimensional coordinate. -/
abbrev Pt := Fin 256

/-- Value type instance: a one-byte opaque payload. -/
abbrev Val := Fin 256

/-- `bincode.serialize` of one `(point, value)` row. -/
def serializeRow (r : Pt × Val) : List Nat := [r.1.val, r.2.val]

/-- `bincode.deserialize` of one row from a 2-byte buffer. -/
def deserializeRow (l : List Nat) : Option (Pt × Val) :=
  match l with
  | [a, b] => if h : a < 256 ∧ b < 256 then some (⟨a, h.1⟩, ⟨b, h.2⟩) else none
  | _ => none

/-- `P::take_bytes` / `V::take_bytes`: the byte-length probe of the
one-byte codec (needs at least one byte of input). -/
def takeBytes1 (buf : List Nat) : Option Nat :=
  if 1 ≤ buf.length then some 1 else none

/-- `P::bounds`: min/max bounding box over a set of points, `none` when
the set is empty. -/
def ptBounds (ps : List Pt) : Option (Pt × Pt) :=
  match ps with
  | [] => none
  | p :: rest => some (rest.foldl (fun acc q => (min acc.1 q, max acc.2 q)) (p, p))

/-- Big-endian bytes of `x as u32`. -/
def u32BE (x : Nat) : List Nat :=
  [x / 2 ^ 24 % 256, x / 2 ^ 16 % 256, x / 2 ^ 8 % 256, x % 256]

/-- Big-endian bytes of `x as u16`. -/
def u16BE (x : Nat) : List Nat := [x / 256 % 256, x % 256]

/-- `u32::from_be_bytes`. -/
def u32FromBE (b0 b1 b2 b3 : Nat) : Nat := ((b0 * 256 + b1) * 256 + b2) * 256 + b3

/-- `u16::from_be_bytes`. -/
def u16FromBE (b0 b1 : Nat) : Nat := b0 * 256 + b1

/-- `bincode.serialize` of one Range-Index entry `(offset, range, count)`
(content is opaque to every claim; a fixed-width concrete encoding). -/
def rangeSerialize (e : Nat × (Pt × Pt) × Nat) : List Nat :=
  u32BE e.1 ++ [e.2.1.1.val, e.2.1.2.val] ++ u32BE e.2.2

/-! ## DataStore / DataRange / DataMerge (src/data.rs) -/

/-- Error kinds of the fallible data-store paths (spec §7): `ensure!` /
`bail!` conditions, plus propagated read/parse failures. -/
inductive DErr where
  /-- `ensure![rows.len() <= max_data_size]` in `batch`, and the combined
  size check in `DataMerge::batch` (both use the same message/kind). -/
  | capacity
  /-- `bail!["invalid data at offset .."]` when bounds computation yields
  none. -/
  | invalidData
  /-- `bail!["indexes is an empty array"]` in `delete`. -/
  | emptyIndexes
  /-- `ensure![len <= store.len - block]` in `delete`. -/
  | indexPastEnd
  /-- `ensure![len <= bitfield_len + 6]` in `delete`. -/
  | pastBitfield
  /-- `ensure![len <= block_size]` in `delete`. -/
  | blockTooSmall
  /-- failure propagated from the chunked block reader. -/
  | readFailed
  /-- failure propagated from row deserialization. -/
  | parseFailed
  deriving Repr, DecidableEq

/-- `DataRange`: the Range Index — an append-only log plus a bbox LRU. -/
structure DataRange where
  store : Store
  cache : List (Nat × ((Pt × Pt) × Nat))
  deriving Repr, DecidableEq

/-- `DataRange::write(b)`: append the serialized entry at the end of the
range log. -/
def DataRange.write (r : DataRange) (b : Nat × (Pt × Pt) × Nat) : DataRange :=
  { r with store := r.store.write r.store.len (rangeSerialize b) }

/-- `DataStore`: data log, Range Index, list LRU, capacity bound. -/
structure DataStore where
  store : Store
  range : DataRange
  list_cache : List (Nat × List (Pt × Val × (Nat × Nat)))
  max_data_size : Nat
  deriving Repr, DecidableEq

/-- A fresh data store over empty logs. -/
def DataStore.open (max_data_size : Nat) : DataStore :=
  ⟨⟨[]⟩, ⟨⟨[]⟩, []⟩, [], max_data_size⟩

/-- The bitfield-populating loop of `DataStore::batch`:
`data[6+i/8] |= 1 << (i%8)` for every row index `i`. -/
def setLiveBits (data : List Nat) (n : Nat) : List Nat :=
  (List.range n).foldl
    (fun d i => d.set (6 + i / 8) ((d.getD (6 + i / 8) 0) ||| (1 <<< (i % 8)))) data

/-- `DataStore::batch(rows)`: capacity check, header+bitfield (all bits
set), serialized rows, big-endian length fields, append at end-of-store,
bounds check (`bail!` on none — after the store write), Range Index entry. -/
def DataStore.batch (st : DataStore) (rows : List (Pt × Val)) :
    Except DErr Nat × DataStore :=
  if st.max_data_size < rows.length then (.error .capacity, st)
  else
    let bitfield_len := (rows.length + 7) / 8
    let data0 := setLiveBits (List.replicate (6 + bitfield_len) 0) rows.length
    let data1 := data0 ++ rows.flatMap serializeRow
    let len := data1.length
    let data2 := setSlice (setSlice data1 0 (u32BE len)) 4 (u16BE bitfield_len)
    let offset := st.store.len
    let store2 := st.store.write offset data2
    match ptBounds (rows.map (·.1)) with
    | none => (.error .invalidData, { st with store := store2 })
    | some bbox =>
      (.ok offset,
       { st with store := store2, range := st.range.write (offset, bbox, rows.length) })

/-- Modelled from the spec: `read_block` (src/read_block.rs, which is not
under src/) reads a length-prefixed data block in bounded chunks up to the
store's length; its result is the block's bytes after the 4-byte
big-endian length prefix, i.e. bytes `[offset+4, offset+total_len)`,
failing when the prefix or the declared block extent lies past the end of
the store. -/
def read_block (s : Store) (offset : Nat) : Option (List Nat) :=
  if offset + 4 ≤ s.len then
    let hd := s.read offset 4
    let block_len := u32FromBE (hd.getD 0 0) (hd.getD 1 0) (hd.getD 2 0) (hd.getD 3 0)
    if 4 ≤ block_len ∧ offset + block_len ≤ s.len then
      some (s.read (offset + 4) (block_len - 4))
    else none
  else none

/-- The row-decoding loop of `DataStore::parse`: walk the concatenated
rows (2 bytes each under the instantiated codec, via the `take_bytes`
probes), keep rows whose bitfield bit is set, tagged with their index.
Out-of-range bitfield indexing reads 0 (dead) where the source would
panic; both are unreachable for well-formed blocks. -/
def parseRows (bitfield : List Nat) : List Nat → Nat → Option (List (Pt × Val × Nat))
  | [], _ => some []
  | [_], _ => none
  | a :: b :: rest, index => do
    let tail ← parseRows bitfield rest (index + 1)
    if getBitB bitfield index then
      let pv ← deserializeRow [a, b]
      pure ((pv.1, pv.2, index) :: tail)
    else
      pure tail

/-- `DataStore::parse(buf)`: decode the bitfield length and bitfield,
then the rows. -/
def DataStore.parse (buf : List Nat) : Option (List (Pt × Val × Nat)) :=
  match buf with
  | b0 :: b1 :: rest =>
    let bitfield_len := u16FromBE b0 b1
    if bitfield_len ≤ rest.length then
      parseRows (rest.take bitfield_len) (rest.drop bitfield_len) 0
    else none
  | _ => none

/-- `DataStore::list(offset)`: cached row list if present, else read the
block, parse it, tag each live row with `Location = (offset+1, index)`,
and cache. -/
def DataStore.list (st : DataStore) (offset : Nat) :
    Except DErr (List (Pt × Val × (Nat × Nat))) × DataStore :=
  match alistGet st.list_cache offset with
  | some rows => (.ok rows, st)
  | none =>
    match read_block st.store offset with
    | none => (.error .readFailed, st)
    | some buf =>
      match DataStore.parse buf with
      | none => (.error .parseFailed, st)
      | some rows0 =>
        let rows := rows0.map (fun r => (r.1, r.2.1, (offset + 1, r.2.2)))
        (.ok rows, { st with list_cache := alistPut st.list_cache offset rows })

/-- The grouping pass of `DataStore::delete`: locations with marker 0
(staging) are skipped, the rest are grouped by `block = marker - 1`
(the source groups into a `HashMap`; insertion order is kept here). -/
def groupByBlock (locations : List (Nat × Nat)) : List (Nat × List Nat) :=
  locations.foldl
    (fun acc loc =>
      if loc.1 = 0 then acc
      else
        match alistGet acc (loc.1 - 1) with
        | some ixs => alistPut acc (loc.1 - 1) (ixs ++ [loc.2])
        | none => acc ++ [(loc.1 - 1, [loc.2])])
    []

/-- `0xff - (1 << (index % 8))` masking of one bitfield byte. -/
def clearBitByte (x index : Nat) : Nat := x &&& (255 - (1 <<< (index % 8)))

/-- One block's worth of `DataStore::delete`: bounds-checked header read,
bit clears, in-place bitfield write-back, and in-place pruning of the
cached row list. -/
def DataStore.deleteBlock (st : DataStore) (block : Nat) (indexes : List Nat) :
    Except DErr Unit × DataStore :=
  match indexes.max? with
  | none => (.error .emptyIndexes, st)
  | some max_i =>
    let len := 7 + max_i / 8
    if ¬ len ≤ st.store.len - block then (.error .indexPastEnd, st)
    else
      let header := st.store.read block len
      let block_size := u32FromBE (header.getD 0 0) (header.getD 1 0)
        (header.getD 2 0) (header.getD 3 0)
      let bitfield_len := u16FromBE (header.getD 4 0) (header.getD 5 0)
      if ¬ len ≤ bitfield_len + 6 then (.error .pastBitfield, st)
      else if ¬ len ≤ block_size then (.error .blockTooSmall, st)
      else
        let header2 := indexes.foldl
          (fun h index => h.set (6 + index / 8) (clearBitByte (h.getD (6 + index / 8) 0) index))
          header
        let store2 := st.store.write (block + 6) (header2.drop 6)
        let cache2 :=
          match alistGet st.list_cache block with
          | some rows =>
            alistPut st.list_cache block (rows.filter (fun row => ¬ indexes.contains row.2.2.2))
          | none => st.list_cache
        (.ok (), { st with store := store2, list_cache := cache2 })

/-- The per-group loop of `DataStore::delete`, stopping at the first
failure (state mutated so far is kept, as with `&mut self`). -/
def DataStore.deleteLoop (st : DataStore) :
    List (Nat × List Nat) → Except DErr Unit × DataStore
  | [] => (.ok (), st)
  | (block, ixs) :: rest =>
    match DataStore.deleteBlock st block ixs with
    | (.ok _, st2) => DataStore.deleteLoop st2 rest
    | e => e

/-- `DataStore::delete(locations)`. -/
def DataStore.delete (st : DataStore) (locations : List (Nat × Nat)) :
    Except DErr Unit × DataStore :=
  st.deleteLoop (groupByBlock locations)

/-- `DataStore::bbox(offset)`: cached `(bounds, row_count)` if present,
else computed over the live rows (`none` when the block is empty) and
cached. `delete` never touches this cache. -/
def DataStore.bbox (st : DataStore) (offset : Nat) :
    Except DErr (Option ((Pt × Pt) × Nat)) × DataStore :=
  match alistGet st.range.cache offset with
  | some r => (.ok (some r), st)
  | none =>
    match st.list offset with
    | (.error e, st2) => (.error e, st2)
    | (.ok rows, st2) =>
      if rows.isEmpty then (.ok none, st2)
      else
        match ptBounds (rows.map (·.1)) with
        | none => (.error .invalidData, st2)
        | some bbox =>
          (.ok (some (bbox, rows.length)),
           { st2 with range := { st2.range with
              cache := alistPut st2.range.cache offset (bbox, rows.length) } })

/-- The listing/concatenation loop of `DataMerge::batch`: list every given
address and concatenate the live `(point, value)` rows in order. -/
def DataMerge.combine (st : DataStore) :
    List ((Pt × Pt) × Nat) → Except DErr (List (Pt × Val)) × DataStore
  | [] => (.ok [], st)
  | row :: rest =>
    match st.list row.2 with
    | (.error e, st2) => (.error e, st2)
    | (.ok pvs, st2) =>
      match DataMerge.combine st2 rest with
      | (.ok c, st3) => (.ok (pvs.map (fun x => (x.1, x.2.1)) ++ c), st3)
      | e => e

/-- `DataMerge::batch(rows)`: a single `(range, address)` row returns that
address unchanged; otherwise concatenate all addresses' live rows, check
the capacity bound, and re-append as one new block. -/
def DataMerge.batch (st : DataStore) (rows : List ((Pt × Pt) × Nat)) :
    Except DErr Nat × DataStore :=
  match rows with
  | [row] => (.ok row.2, st)
  | _ =>
    match DataMerge.combine st rows with
    | (.error e, st2) => (.error e, st2)
    | (.ok combined, st2) =>
      if st.max_data_size < combined.length then (.error .capacity, st2)
      else st2.batch combined

/-- The all-live bitfield bytes `DataStore::batch` builds for `n` rows
(the bytes of `setLiveBits` after the 6-byte header). -/
def bitfieldBytes (n : Nat) : List Nat :=
  (setLiveBits (List.replicate (6 + (n + 7) / 8) 0) n).drop 6

/-- The cumulative effect of `DataStore::delete` bit-clears on a bitfield:
clear bit `k` for every `k` in `dead`, in order. -/
def clearBits (m : List Nat) (dead : List Nat) : List Nat :=
  dead.foldl (fun h k => h.set (k / 8) (clearBitByte (h.getD (k / 8) 0) k)) m

/-- The on-disk bytes of the data block `DataStore::batch` writes for
`rows`, after the bitfield bits in `dead` have been cleared by deletes:
`[total_len:u32 BE][bitfield_len:u16 BE][bitfield][row0][row1]...`. -/
def blockBytesD (rows : List (Pt × Val)) (dead : List Nat) : List Nat :=
  u32BE (6 + (rows.length + 7) / 8 + (rows.flatMap serializeRow).length) ++
    u16BE ((rows.length + 7) / 8) ++
    clearBits (bitfieldBytes rows.length) dead ++
    rows.flatMap serializeRow

/-- The row list `DataStore::list` returns for a block of `rows` at
`offset` whose indices in `dead` have been deleted: the live rows in
original order, tagged with `Location = (offset+1, original index)`. -/
def liveTagged (offset : Nat) (rows : List (Pt × Val)) (dead : List Nat) :
    List (Pt × Val × (Nat × Nat)) :=
  (rows.enum.filter (fun e => !(dead.contains e.1))).map
    (fun e => (e.2.1, e.2.2, (offset + 1, e.1)))

/-- A sequence of single-location `DataStore::delete` calls against the
block at `offset`, one per index in `ks`. -/
def deleteSeq (st : DataStore) (offset : Nat) (ks : List Nat) : DataStore :=
  ks.foldl (fun s k => (s.delete [(offset + 1, k)]).2) st

/-- Blocks reachable from `Block::new` by in-bounds `Block::write` calls
alone — the fragment of the C6 claim on which the mask/missing invariant
holds (`from_data` and `merge` leave the mask stale; see the C6
counterexample). -/
inductive ReachW : Block → Prop where
  | new (size : Nat) : ReachW (Block.new size)
  | write (b : Block) (offset : Nat) (d : List Nat)
      (h : offset + d.length ≤ b.data.length) (hr : ReachW b) : ReachW (b.write offset d)

/-- The representation invariant of write-only blocks: the mask has the
byte length `Block::new` allocates, no bit at or beyond the data length is
set, and `missing` counts exactly the unset mask bits below the data
length. -/
def BlockWInv (b : Block) : Prop :=
  b.mask.length = (b.data.length + 7) / 8 ∧
  (∀ i, b.data.length ≤ i → getBitB b.mask i = false) ∧
  b.missing = (List.range b.data.length).countP (fun i => !(getBitB b.mask i))

/-- The pending write-blocks `BlockCache::write(offset, data)` creates on
a cache whose write map holds no key at or above `i * S` (newest first,
matching the association-list insertion order): one per block segment
`i, i+1, ...` with `c` segments remaining and `d` bytes of `data` already
consumed, each block a fresh `Block` holding its slice of `data` at its
local offset — the same `b_start`/`b_len` arithmetic as the source loop. -/
def wseq (offset : Nat) (data : List Nat) (S : Nat) : Nat → Nat → Nat → List (Nat × Block)
  | _, 0, _ => []
  | i, c + 1, d =>
    let b := i * S
    let b_start := offset.max b - b
    let b_len := ((offset + data.length) - b).min ((S - b_start).min data.length)
    wseq offset data S (i + 1) c (d + b_len) ++
      [(b, (Block.new S).write b_start ((data.drop d).take b_len))]

/-! ## General lemmas: slices, association lists, bits -/

theorem length_setSlice {α : Type} (l : List α) (off : Nat) (d : List α) :
    (setSlice l off d).length = l.length := by
  simp only [setSlice, List.length_append, List.length_take, List.length_drop]
  omega

theorem setSlice_eq_append {α : Type} {l : List α} {off : Nat} {d : List α}
    (h : off + d.length ≤ l.length) :
    setSlice l off d = l.take off ++ d ++ l.drop (off + d.length) := by
  unfold setSlice
  rw [List.take_of_length_le (l := d) (by omega)]

theorem setSlice_nil {α : Type} (l : List α) (off : Nat) :
    setSlice l off [] = l := by
  simp [setSlice]

theorem setSlice_extract {α : Type} {l : List α} {off : Nat} {d : List α}
    (h : off + d.length ≤ l.length) :
    ((setSlice l off d).drop off).take d.length = d := by
  rw [setSlice_eq_append h, List.append_assoc,
    @List.drop_left' _ (l.take off) _ _ (by simp; omega),
    List.take_left' rfl]

theorem setSlice_take {α : Type} {l : List α} {off : Nat} {d : List α}
    (h : off + d.length ≤ l.length) :
    (setSlice l off d).take off = l.take off := by
  rw [setSlice_eq_append h, List.append_assoc, List.take_left' (by simp; omega)]

theorem setSlice_take_add {α : Type} {l : List α} {off : Nat} {d : List α}
    (h : off + d.length ≤ l.length) :
    (setSlice l off d).take (off + d.length) = l.take off ++ d := by
  rw [setSlice_eq_append h, List.take_left' (by simp; omega)]

theorem alistGet_put_self {α : Type} (l : List (Nat × α)) (k : Nat) (v : α) :
    alistGet (alistPut l k v) k = some v := by
  simp [alistGet, alistPut, List.find?]

theorem find_filter_ne {α : Type} (l : List (Nat × α)) {k k' : Nat} (h : k' ≠ k) :
    List.find? (fun e => e.1 == k') (l.filter (fun e => e.1 != k)) =
      List.find? (fun e => e.1 == k') l := by
  induction l with
  | nil => rfl
  | cons e rest ih =>
    by_cases he' : e.1 = k'
    · have hk : (e.1 != k) = true := by simp [he']; omega
      have hc : (e.1 == k') = true := by simp [he']
      rw [List.filter_cons_of_pos (p := fun e : Nat × α => e.1 != k) hk,
        List.find?_cons_of_pos (p := fun e : Nat × α => e.1 == k') _ hc,
        List.find?_cons_of_pos (p := fun e : Nat × α => e.1 == k') _ hc]
    · have h2 : (e.1 == k') = false := by simp [he']
      by_cases he : e.1 = k
      · have hk : (e.1 != k) = false := by simp [he]
        rw [List.filter_cons_of_neg (p := fun e : Nat × α => e.1 != k) (by simp [hk]), ih,
          List.find?_cons_of_neg (p := fun e : Nat × α => e.1 == k') _ (by simp [h2])]
      · have hk : (e.1 != k) = true := by simp [he]
        rw [List.filter_cons_of_pos (p := fun e : Nat × α => e.1 != k) hk,
          List.find?_cons_of_neg (p := fun e : Nat × α => e.1 == k') _ (by simp [h2]),
          List.find?_cons_of_neg (p := fun e : Nat × α => e.1 == k') _ (by simp [h2]), ih]

theorem alistGet_remove_ne {α : Type} (l : List (Nat × α)) {k k' : Nat} (h : k' ≠ k) :
    alistGet (alistRemove l k) k' = alistGet l k' := by
  simp only [alistGet, alistRemove]
  rw [find_filter_ne l h]

theorem alistGet_put_ne {α : Type} (l : List (Nat × α)) {k k' : Nat} (v : α) (h : k' ≠ k) :
    alistGet (alistPut l k v) k' = alistGet l k' := by
  have h2 : (k == k') = false := by simp; omega
  simp only [alistPut, alistGet, List.find?, h2]
  exact alistGet_remove_ne l h

theorem getBitB_eq_testBit (m : List Nat) (i : Nat) :
    getBitB m i = Nat.testBit (m.getD (i / 8) 0) (i % 8) := by
  unfold getBitB Nat.testBit
  rcases Nat.even_or_odd ((m.getD (i / 8) 0) >>> (i % 8)) with h | h
  · rw [Nat.even_iff] at h
    have h1 : (m.getD (i / 8) 0) >>> (i % 8) &&& 1 = 0 := by
      rw [Nat.and_one_is_mod, h]
    have h2 : 1 &&& (m.getD (i / 8) 0) >>> (i % 8) = 0 := by
      rw [Nat.land_comm]; exact h1
    simp [h1, h2]
  · rw [Nat.odd_iff] at h
    have h1 : (m.getD (i / 8) 0) >>> (i % 8) &&& 1 = 1 := by
      rw [Nat.and_one_is_mod, h]
    have h2 : 1 &&& (m.getD (i / 8) 0) >>> (i % 8) = 1 := by
      rw [Nat.land_comm]; exact h1
    simp [h1, h2]

theorem getD_set_self (m : List Nat) {a : Nat} (v : Nat) (h : a < m.length) :
    (m.set a v).getD a 0 = v := by
  simp [List.getD_eq_getElem?_getD, List.getElem?_set_self, h]

theorem getD_set_ne (m : List Nat) {a b : Nat} (v : Nat) (h : a ≠ b) :
    (m.set a v).getD b 0 = m.getD b 0 := by
  simp [List.getD_eq_getElem?_getD, List.getElem?_set_ne h]

theorem getBitB_setBitB_self {m : List Nat} {i : Nat} (h : i / 8 < m.length) :
    getBitB (setBitB m i) i = true := by
  rw [getBitB_eq_testBit, setBitB, getD_set_self _ _ h]
  simp [Nat.one_shiftLeft, Nat.testBit_two_pow]

theorem getBitB_setBitB_ne {m : List Nat} {i j : Nat} (h : j ≠ i) :
    getBitB (setBitB m i) j = getBitB m j := by
  rw [getBitB_eq_testBit, getBitB_eq_testBit, setBitB]
  by_cases hb : i / 8 = j / 8
  · by_cases hl : i / 8 < m.length
    · rw [hb, getD_set_self _ _ (hb ▸ hl)]
      rw [Nat.one_shiftLeft, Nat.testBit_or, Nat.testBit_two_pow]
      have hm : i % 8 ≠ j % 8 := by omega
      simp [hm]
    · rw [List.set_eq_of_length_le (by omega)]
  · rw [getD_set_ne _ _ hb]

/-! ## Store lemmas -/

theorem Store.write_at_end (s : Store) (d : List Nat) :
    s.write s.len d = ⟨s.bytes ++ d⟩ := by
  simp only [Store.write, Store.len]
  congr 1
  rw [List.take_left' rfl, List.drop_eq_nil_of_le (by simp)]
  simp

theorem Store.len_write_at_end (s : Store) (d : List Nat) :
    (s.write s.len d).len = s.len + d.length := by
  rw [Store.write_at_end]
  simp [Store.len]

/-! ## Claim C1 — commit write placement -/

/-- Claim C1: FALSIFYING EVALUATION.  `BlockCache::commit` is claimed to
issue physical writes in ascending block order and to concatenate a
block's first sub-range (local offset 0) onto the previous write only
when that write came from the immediately preceding, block-adjacent
address.  The code checks only `i == 0`: with block size 4 and pending
write-blocks at the NON-adjacent addresses 0 (one byte written) and 8
(fully written), iterated in ascending order, the plan coalesces both
into a single write at offset 0, so block 8's four bytes are issued at
offsets 1..5 and nothing is written at address 8. -/
theorem c1_commit_concatenates_nonadjacent_blocks :
    BlockCache.commitPlan
        [(0, (Block.new 4).write 0 [9]), (8, (Block.new 4).write 0 [5, 6, 7, 8])] =
      [(0, [9, 5, 6, 7, 8])] ∧
    (BlockCache.commitWith (BlockCache.new ⟨[]⟩ 4)
        [(0, (Block.new 4).write 0 [9]), (8, (Block.new 4).write 0 [5, 6, 7, 8])]).store =
      ⟨[9, 5, 6, 7, 8]⟩ := by
  constructor <;> rfl

/-! ## Claim C6 — counterexample -/

/-- Claim C6: COUNTEREXAMPLE.  `Block::from_data` is a reachable `Block`
operation, yet it produces `missing == 0` with an all-zero mask: for the
one-byte block `Block.from_data [0]`, `missing = 0` while mask bit 0 is
unset, refuting `missing == 0 ⇔ mask all-ones`. -/
theorem c6_from_data_zero_mask_counterexample :
    (Block.from_data [0]).missing = 0 ∧
    getBitB (Block.from_data [0]).mask 0 = false ∧
    (Block.from_data [0]).data.length = 1 := by
  refine ⟨rfl, rfl, rfl⟩

/-! ## Claim C3 — counterexample -/

/-- Claim C3: COUNTEREXAMPLE.  Writing `D = [1,..,8]` at offset 0 through
a fresh cache with block size 4 buffers two pending blocks; `commit`
iterates the pending `HashMap` in an unspecified order (here: the one the
model's insertion produces, blocks 4 then 0), and the missing adjacency
check concatenates block 0's data after block 4's, so the backing store
afterwards holds `[0,0,0,0,5,6,7,8,1,2,3,4]` — the claimed post-commit
store contents `D` at offset 0 do not hold. -/
theorem c3_commit_roundtrip_counterexample :
    (((BlockCache.new ⟨[]⟩ 4).write 0 [1, 2, 3, 4, 5, 6, 7, 8]).commit).store =
      ⟨[0, 0, 0, 0, 5, 6, 7, 8, 1, 2, 3, 4]⟩ ∧
    ((((BlockCache.new ⟨[]⟩ 4).write 0 [1, 2, 3, 4, 5, 6, 7, 8]).commit).store.read 0 8 ≠
      [1, 2, 3, 4, 5, 6, 7, 8]) := by
  constructor
  · rfl
  · decide

/-! ## Claim C10 — empty batch writes an orphan header -/

/-- Claim C10: `DataStore::batch` on an empty rows vector passes the
capacity check, writes the 6-byte header `[0,0,0,6,0,0]` at end-of-store,
and only then fails with the invalid-data kind (`P::bounds` of an empty
set is none): the store grows by 6 bytes, and the Range Index log, both
caches and `max_data_size` are unchanged. -/
theorem c10_empty_batch_orphan_header (st : DataStore) :
    DataStore.batch st [] =
      (.error .invalidData, { st with store := ⟨st.store.bytes ++ [0, 0, 0, 6, 0, 0]⟩ }) ∧
    (⟨st.store.bytes ++ [0, 0, 0, 6, 0, 0]⟩ : Store).len = st.store.len + 6 := by
  have hdata : setSlice (setSlice (setLiveBits (List.replicate 6 0) 0 ++
      ([] : List (Pt × Val)).flatMap serializeRow) 0
      (u32BE (setLiveBits (List.replicate 6 0) 0 ++
        ([] : List (Pt × Val)).flatMap serializeRow).length)) 4 (u16BE ((0 + 7) / 8)) =
      [0, 0, 0, 6, 0, 0] := by rfl
  constructor
  · simp only [DataStore.batch, List.length_nil, Nat.not_lt_zero, if_neg, List.map_nil,
      hdata, ptBounds, Store.write_at_end, decide_False, if_false]
  · simp [Store.len]

/-! ## Claim C5 — capacity enforcement -/

theorem list_preserves (st : DataStore) (o : Nat) :
    ((st.list o).2).store = st.store ∧ ((st.list o).2).range = st.range ∧
      ((st.list o).2).max_data_size = st.max_data_size := by
  unfold DataStore.list
  split
  · exact ⟨rfl, rfl, rfl⟩
  · split
    · exact ⟨rfl, rfl, rfl⟩
    · split
      · exact ⟨rfl, rfl, rfl⟩
      · exact ⟨rfl, rfl, rfl⟩

theorem combine_preserves (rows : List ((Pt × Pt) × Nat)) :
    ∀ st : DataStore, ((DataMerge.combine st rows).2).store = st.store ∧
      ((DataMerge.combine st rows).2).range = st.range ∧
      ((DataMerge.combine st rows).2).max_data_size = st.max_data_size := by
  induction rows with
  | nil => intro st; exact ⟨rfl, rfl, rfl⟩
  | cons row rest ih =>
    intro st
    have hp := list_preserves st row.2
    unfold DataMerge.combine
    split
    all_goals rename_i x y heq
    · rw [heq] at hp
      exact hp
    · rw [heq] at hp
      have hp2 := ih y
      split
      · rename_i c st3 heq2
        rw [heq2] at hp2
        exact ⟨hp2.1.trans hp.1, hp2.2.1.trans hp.2.1, hp2.2.2.trans hp.2.2⟩
      · exact ⟨hp2.1.trans hp.1, hp2.2.1.trans hp.2.1, hp2.2.2.trans hp.2.2⟩

/-- Claim C5: batching more than `max_data_size` rows fails with the
capacity kind and leaves the whole data store untouched (the `ensure!` is
the first statement of `batch`); a multi-address merge whose combined
live-row count exceeds `max_data_size` fails with the same kind after only
the listings (which touch caches alone), so the data log and the Range
Index log are unchanged. -/
theorem c5_capacity_enforcement (st st2 : DataStore) (rows : List (Pt × Val))
    (mrows : List ((Pt × Pt) × Nat)) (combined : List (Pt × Val))
    (hrows : st.max_data_size < rows.length)
    (hm2 : 2 ≤ mrows.length)
    (hcomb : DataMerge.combine st mrows = (.ok combined, st2))
    (hover : st.max_data_size < combined.length) :
    DataStore.batch st rows = (.error .capacity, st) ∧
    DataMerge.batch st mrows = (.error .capacity, st2) ∧
    st2.store = st.store ∧ st2.range.store = st.range.store := by
  refine ⟨?_, ?_, ?_, ?_⟩
  · unfold DataStore.batch
    rw [if_pos hrows]
  · rcases mrows with _ | ⟨r1, _ | ⟨r2, rest⟩⟩
    · simp at hm2
    · simp at hm2
    · have hb : DataMerge.batch st (r1 :: r2 :: rest) =
          (match DataMerge.combine st (r1 :: r2 :: rest) with
           | (.error e, st2) => (.error e, st2)
           | (.ok combined, st2) =>
             if st.max_data_size < combined.length then (.error .capacity, st2)
             else st2.batch combined) := rfl
      rw [hb, hcomb]
      show (if st.max_data_size < combined.length then
          ((Except.error DErr.capacity : Except DErr Nat), st2)
        else st2.batch combined) = _
      rw [if_pos hover]
  · have := (combine_preserves mrows st).1
    rw [hcomb] at this
    exact this
  · have := (combine_preserves mrows st).2.1
    rw [hcomb] at this
    exact congrArg DataRange.store this

/-- Witness for C5 at a concrete input: a store with `max_data_size = 1`
holding two one-row blocks at addresses 0 and 9; batching two rows and
merging the two addresses both fail with the capacity kind. -/
theorem c5_capacity_enforcement_witness :
    DataStore.batch
        ((DataStore.batch ((DataStore.batch (DataStore.open 1) [(5, 6)]).2) [(7, 8)]).2)
        [(1, 2), (3, 4)] =
      (.error .capacity,
        (DataStore.batch ((DataStore.batch (DataStore.open 1) [(5, 6)]).2) [(7, 8)]).2) ∧
    DataMerge.batch
        ((DataStore.batch ((DataStore.batch (DataStore.open 1) [(5, 6)]).2) [(7, 8)]).2)
        [((5, 5), 0), ((7, 7), 9)] =
      (.error .capacity,
        (DataMerge.combine
          ((DataStore.batch ((DataStore.batch (DataStore.open 1) [(5, 6)]).2) [(7, 8)]).2)
          [((5, 5), 0), ((7, 7), 9)]).2) := by
  have h := c5_capacity_enforcement
    ((DataStore.batch ((DataStore.batch (DataStore.open 1) [(5, 6)]).2) [(7, 8)]).2)
    (DataMerge.combine
      ((DataStore.batch ((DataStore.batch (DataStore.open 1) [(5, 6)]).2) [(7, 8)]).2)
      [((5, 5), 0), ((7, 7), 9)]).2
    [(1, 2), (3, 4)] [((5, 5), 0), ((7, 7), 9)] [(5, 6), (7, 8)]
    (by decide) (by decide) (by rfl) (by decide)
  exact ⟨h.1, h.2.1⟩

/-! ## Claim C8 — read returns exactly `length` bytes -/

theorem readLoop1_length (st : BlockCache) (offset length : Nat) :
    ∀ (c i ri : Nat) (result : List Nat) (reads : List (Nat × (Nat × Nat) × Bool)),
      ((BlockCache.readLoop1 st offset length i c ri result reads).1).length = result.length := by
  intro c
  induction c with
  | zero => intro i ri result reads; rfl
  | succ c ih =>
    intro i ri result reads
    simp only [BlockCache.readLoop1]
    split
    · split
      · rw [ih, length_setSlice]
      · rw [ih]
    · split
      · rw [ih, length_setSlice]
      · rw [ih]

theorem readLoop2_length (offset length i0 : Nat) (data : List Nat) :
    ∀ (entries : List (Nat × (Nat × Nat) × Bool)) (result res : List Nat)
      (st st2 : BlockCache),
      BlockCache.readLoop2 offset length i0 data entries result st = some (res, st2) →
      res.length = result.length := by
  intro entries
  induction entries with
  | nil =>
    intro result res st st2 h
    simp only [BlockCache.readLoop2] at h
    cases h
    rfl
  | cons e rest ih =>
    intro result res st st2 h
    rcases e with ⟨b, range, w⟩
    simp only [BlockCache.readLoop2] at h
    split at h
    · split at h
      · have := ih _ res _ st2 h
        rw [this, length_setSlice]
      · cases h
    · have := ih _ res _ st2 h
      rw [this, length_setSlice]

/-- Claim C8: a successful `BlockCache::read(offset, length)` returns a
buffer of exactly `length` bytes, for every cache state (any mix of
pending write-blocks, cached read-blocks, and clipped/zero-padded
physical fetches): the source's `assert_eq![result.len(), length]` always
holds. -/
theorem c8_read_exact_length (st : BlockCache) (offset length : Nat)
    (res : List Nat) (st2 : BlockCache)
    (h : st.read offset length = some (res, st2)) :
    res.length = length := by
  simp only [BlockCache.read] at h
  split at h
  · cases h
    rw [readLoop1_length, List.length_replicate]
  · have := readLoop2_length _ _ _ _ _ _ _ _ _ h
    rw [this, readLoop1_length, List.length_replicate]

/-- Witness for C8 at a concrete input: a fresh cache with block size 2
over a 3-byte store; reading 3 bytes at offset 1 (one cached-miss fetch,
clipped and zero-padded at end-of-store) returns a 3-byte buffer. -/
theorem c8_read_exact_length_witness :
    (BlockCache.new ⟨[1, 2, 3]⟩ 2).read 1 3 =
      some ([2, 3, 0], ⟨⟨[1, 2, 3]⟩, 2,
        [(2, Block.from_data [3, 0]), (0, Block.from_data [1, 2])], []⟩) ∧
    ([2, 3, 0] : List Nat).length = 3 := by
  have hr : (BlockCache.new ⟨[1, 2, 3]⟩ 2).read 1 3 =
      some ([2, 3, 0], ⟨⟨[1, 2, 3]⟩, 2,
        [(2, Block.from_data [3, 0]), (0, Block.from_data [1, 2])], []⟩) := by rfl
  exact ⟨hr, c8_read_exact_length _ 1 3 _ _ hr⟩

/-! ## Claim C6 — missing/mask invariant on write-only blocks -/

theorem countP_range_set {n i : Nat} (hi : i < n) (u u2 : Nat → Bool)
    (hne : ∀ j, j ≠ i → u j = u2 j) (hui : u i = true) (hu2i : u2 i = false) :
    (List.range n).countP u = (List.range n).countP u2 + 1 := by
  induction n with
  | zero => omega
  | succ n ih =>
    rw [List.range_succ, List.countP_append, List.countP_append]
    by_cases hin : i = n
    · subst hin
      have hcong : (List.range i).countP u = (List.range i).countP u2 := by
        refine List.countP_congr ?_
        intro x hx
        have hxi : x ≠ i := by simp only [List.mem_range] at hx; omega
        rw [hne x hxi]
      rw [hcong]
      simp [List.countP_cons, hui, hu2i]
    · have hrec := ih (by omega)
      have hn : u n = u2 n := hne n (by omega)
      rw [hrec]
      cases hun : u n with
      | true =>
        rw [hun] at hn
        simp [List.countP_cons, hun, ← hn]
      | false =>
        rw [hun] at hn
        simp [List.countP_cons, hun, ← hn]

theorem getBitB_replicate_zero (k i : Nat) : getBitB (List.replicate k 0) i = false := by
  rw [getBitB_eq_testBit]
  have h0 : (List.replicate k (0 : Nat)).getD (i / 8) 0 = 0 := by
    rcases Nat.lt_or_ge (i / 8) k with h | h
    · simp [List.getD_eq_getElem?_getD, List.getElem?_replicate, h]
    · simp [List.getD_eq_getElem?_getD, List.getElem?_eq_none
        (by simpa using h : (List.replicate k (0 : Nat)).length ≤ i / 8)]
  rw [h0, Nat.zero_testBit]

theorem blockWInv_new (size : Nat) : BlockWInv (Block.new size) := by
  refine ⟨by simp [Block.new], ?_, ?_⟩
  · intro i hi
    simp only [Block.new]
    exact getBitB_replicate_zero _ _
  · simp only [Block.new, List.length_replicate]
    have hall : ∀ x ∈ List.range size,
        (fun i => !(getBitB (List.replicate ((size + 7) / 8) 0) i)) x := by
      intro x hx
      simp [getBitB_replicate_zero]
    rw [List.countP_eq_length.mpr hall, List.length_range]

theorem markLoop_inv : ∀ (c i : Nat) (b : Block), BlockWInv b → i + c ≤ b.data.length →
    BlockWInv (Block.markLoop b i c) ∧ (Block.markLoop b i c).data = b.data := by
  intro c
  induction c with
  | zero => intro i b hinv hle; exact ⟨hinv, rfl⟩
  | succ c ih =>
    intro i b hinv hle
    simp only [Block.markLoop]
    have hi : i < b.data.length := by omega
    have hi8 : i / 8 < b.mask.length := by rw [hinv.1]; omega
    have hstep : BlockWInv ⟨b.data, setBitB b.mask i,
        if !(getBitB b.mask i) && decide (b.missing > 0) then b.missing - 1
        else b.missing⟩ := by
      refine ⟨by show (setBitB b.mask i).length = _; simp [setBitB, hinv.1], ?_, ?_⟩
      · intro j hj
        have hj2 : b.data.length ≤ j := hj
        have hji : j ≠ i := by omega
        show getBitB (setBitB b.mask i) j = false
        rw [getBitB_setBitB_ne hji]
        exact hinv.2.1 j hj2
      · show (if !(getBitB b.mask i) && decide (b.missing > 0) then b.missing - 1
            else b.missing) =
          (List.range b.data.length).countP (fun j => !(getBitB (setBitB b.mask i) j))
        cases hmb : getBitB b.mask i with
        | true =>
          simp only [hmb, Bool.not_true, Bool.false_and, if_false, Bool.false_eq_true]
          rw [hinv.2.2]
          refine List.countP_congr ?_
          intro x hx
          by_cases hxi : x = i
          · subst hxi
            show (!(getBitB b.mask x)) = true ↔ (!(getBitB (setBitB b.mask x) x)) = true
            rw [getBitB_setBitB_self hi8, hmb]
          · show (!(getBitB b.mask x)) = true ↔ (!(getBitB (setBitB b.mask i) x)) = true
            rw [getBitB_setBitB_ne hxi]
        | false =>
          have hpos : 0 < b.missing := by
            rw [hinv.2.2]
            refine List.countP_pos_iff.mpr ⟨i, by simp [List.mem_range, hi], ?_⟩
            show (!(getBitB b.mask i)) = true
            simp [hmb]
          have hupd := countP_range_set (n := b.data.length) hi
            (fun j => !(getBitB b.mask j)) (fun j => !(getBitB (setBitB b.mask i) j))
            (by intro j hj
                show (!(getBitB b.mask j)) = (!(getBitB (setBitB b.mask i) j))
                rw [getBitB_setBitB_ne hj])
            (by show (!(getBitB b.mask i)) = true; simp [hmb])
            (by show (!(getBitB (setBitB b.mask i) i)) = false
                rw [getBitB_setBitB_self hi8]
                decide)
          have hcond : (!false && decide (b.missing > 0)) = true := by
            simp [hpos]
          rw [if_pos hcond, hinv.2.2]
          omega
    have := ih (i + 1) _ hstep (by show i + 1 + c ≤ b.data.length; omega)
    exact this

theorem blockWInv_write {b : Block} {offset : Nat} {d : List Nat}
    (hinv : BlockWInv b) (h : offset + d.length ≤ b.data.length) :
    BlockWInv (b.write offset d) := by
  unfold Block.write
  have hpre : BlockWInv ⟨setSlice b.data offset d, b.mask, b.missing⟩ := by
    refine ⟨?_, ?_, ?_⟩
    · simpa [length_setSlice] using hinv.1
    · intro i hi
      rw [length_setSlice] at hi
      exact hinv.2.1 i hi
    · simpa [length_setSlice] using hinv.2.2
  exact (markLoop_inv d.length offset _ hpre (by simpa [length_setSlice] using h)).1

theorem reachW_inv {b : Block} (hr : ReachW b) : BlockWInv b := by
  induction hr with
  | new size => exact blockWInv_new size
  | write b offset d h hr ih => exact blockWInv_write ih h

/-- Claim C6 (amended): for every block reachable from `Block::new` by
in-bounds `Block::write` calls alone, `missing == 0` holds iff every mask
bit below the data length is set (mask all-ones), iff every byte has been
written.  The original claim also admitted `from_data` and `merge`, which
break the equivalence: `from_data` yields `missing = 0` with an all-zero
mask (see the counterexample), and `merge` decrements `missing` without
setting mask bits. -/
theorem c6_missing_zero_iff_mask_all_ones (b : Block) (hr : ReachW b) :
    b.missing = 0 ↔ ∀ i, i < b.data.length → getBitB b.mask i = true := by
  have hinv := reachW_inv hr
  rw [hinv.2.2, List.countP_eq_zero]
  constructor
  · intro h i hi
    have := h i (by simp [List.mem_range, hi])
    simpa using this
  · intro h i hi
    simp only [List.mem_range] at hi
    simp [h i hi]

/-- Witness for C6 (amended) at a concrete input: the fully written
one-byte block `(Block.new 1).write 0 [7]` has `missing = 0`, via the
amended equivalence. -/
theorem c6_missing_zero_iff_mask_all_ones_witness :
    ((Block.new 1).write 0 [7]).missing = 0 :=
  (c6_missing_zero_iff_mask_all_ones _
    (ReachW.write _ 0 [7] (by decide) (ReachW.new 1))).mpr (by decide)

/-! ## Claim C9 — the commit-merge panic branch is unreachable -/

theorem alistGet_put_isSome {α : Type} (l : List (Nat × α)) (k k' : Nat) (v : α)
    (h : (alistGet l k').isSome) : (alistGet (alistPut l k v) k').isSome := by
  by_cases he : k' = k
  · subst he; rw [alistGet_put_self]; rfl
  · rw [alistGet_put_ne _ _ he]; exact h

theorem readLoop1_queue_flagged (st : BlockCache) (offset length : Nat) :
    ∀ (c i ri : Nat) (result : List Nat) (reads : List (Nat × (Nat × Nat) × Bool)),
      (∀ e ∈ reads, e.2.2 = true → (alistGet st.writes e.1).isSome) →
      ∀ e ∈ (BlockCache.readLoop1 st offset length i c ri result reads).2,
        e.2.2 = true → (alistGet st.writes e.1).isSome := by
  intro c
  induction c with
  | zero => intro i ri result reads hq; exact hq
  | succ c ih =>
    intro i ri result reads hq
    simp only [BlockCache.readLoop1]
    split
    · rename_i block hg
      split
      · exact ih _ _ _ _ hq
      · refine ih _ _ _ _ ?_
        intro e he hf
        rcases List.mem_append.mp he with h1 | h1
        · exact hq e h1 hf
        · simp only [List.mem_singleton] at h1
          subst h1
          rw [hg]; rfl
    · split
      · exact ih _ _ _ _ hq
      · refine ih _ _ _ _ ?_
        intro e he hf
        rcases List.mem_append.mp he with h1 | h1
        · exact hq e h1 hf
        · simp only [List.mem_singleton] at h1
          subst h1
          simp at hf

theorem readLoop2_total (offset length i0 : Nat) (data : List Nat) :
    ∀ (entries : List (Nat × (Nat × Nat) × Bool)) (result : List Nat) (st : BlockCache),
      (∀ e ∈ entries, e.2.2 = true → (alistGet st.writes e.1).isSome) →
      (BlockCache.readLoop2 offset length i0 data entries result st).isSome := by
  intro entries
  induction entries with
  | nil => intro result st hq; rfl
  | cons e rest ih =>
    intro result st hq
    rcases e with ⟨b, range, w⟩
    simp only [BlockCache.readLoop2]
    split
    · rename_i hw
      have hs := hq (b, range, w) (List.mem_cons_self _ _) hw
      split
      · refine ih _ _ ?_
        intro e2 he hf
        have := hq e2 (List.mem_cons_of_mem _ he) hf
        exact alistGet_put_isSome _ _ _ _ this
      · rename_i hg
        rw [hg] at hs
        simp at hs
    · refine ih _ _ ?_
      intro e2 he hf
      exact hq e2 (List.mem_cons_of_mem _ he) hf

/-- Claim C9: `BlockCache::read` never reaches the
`panic!["expected block in write cache ..."]` branch: for every cache
state and every offset/length, every segment queued with the
merge-into-write-block flag still finds its write-block when the fetched
span is redistributed (the model returns `none` exactly on that panic
branch, and `read` is always `some`). -/
theorem c9_read_panic_unreachable (st : BlockCache) (offset length : Nat) :
    (st.read offset length).isSome := by
  simp only [BlockCache.read]
  split
  · rfl
  · refine readLoop2_total _ _ _ _ _ _ _ ?_
    exact readLoop1_queue_flagged st offset length _ _ _ _ _ (by intro e he; cases he)

/-! ## Data-block encoding lemmas (shared by C2, C4, C7) -/

theorem u32_roundtrip {x : Nat} (h : x < 2 ^ 32) :
    u32FromBE (x / 2 ^ 24 % 256) (x / 2 ^ 16 % 256) (x / 2 ^ 8 % 256) (x % 256) = x := by
  unfold u32FromBE
  simp only [show (2 : Nat) ^ 24 = 16777216 from rfl, show (2 : Nat) ^ 16 = 65536 from rfl,
    show (2 : Nat) ^ 8 = 256 from rfl]
  rw [show (2 : Nat) ^ 32 = 4294967296 from rfl] at h
  omega

theorem u16_roundtrip {x : Nat} (h : x < 2 ^ 16) :
    u16FromBE (x / 256 % 256) (x % 256) = x := by
  unfold u16FromBE
  rw [show (2 : Nat) ^ 16 = 65536 from rfl] at h
  omega

theorem flatMap_serializeRow_length (rows : List (Pt × Val)) :
    (rows.flatMap serializeRow).length = 2 * rows.length := by
  induction rows with
  | nil => rfl
  | cons r rest ih =>
    rw [List.flatMap_cons, List.length_append, ih]
    simp [serializeRow]
    omega

theorem setLiveBits_length (data : List Nat) (n : Nat) :
    (setLiveBits data n).length = data.length := by
  unfold setLiveBits
  generalize List.range n = l
  induction l generalizing data with
  | nil => rfl
  | cons i rest ih =>
    rw [List.foldl_cons, ih]
    simp

theorem clearBits_length (m : List Nat) (dead : List Nat) :
    (clearBits m dead).length = m.length := by
  unfold clearBits
  induction dead generalizing m with
  | nil => rfl
  | cons k rest ih =>
    rw [List.foldl_cons, ih]
    simp

theorem bitfieldBytes_length (n : Nat) :
    (bitfieldBytes n).length = (n + 7) / 8 := by
  unfold bitfieldBytes
  rw [List.length_drop, setLiveBits_length]
  simp

theorem blockBytesD_length (rows : List (Pt × Val)) (dead : List Nat) :
    (blockBytesD rows dead).length = 6 + (rows.length + 7) / 8 + 2 * rows.length := by
  unfold blockBytesD
  simp only [List.length_append, u32BE, u16BE, clearBits_length, bitfieldBytes_length,
    flatMap_serializeRow_length, List.length_cons, List.length_nil]

theorem deserializeRow_serializeRow (r : Pt × Val) :
    deserializeRow (serializeRow r) = some r := by
  show (if h : (r.1.val : Nat) < 256 ∧ (r.2.val : Nat) < 256 then
      some ((⟨r.1.val, h.1⟩ : Pt), (⟨r.2.val, h.2⟩ : Val)) else none) = some r
  rw [dif_pos ⟨r.1.isLt, r.2.isLt⟩]

theorem setSlice_zero {α : Type} {l d : List α} (h : d.length ≤ l.length) :
    setSlice l 0 d = d ++ l.drop d.length := by
  rw [setSlice_eq_append (by omega)]
  simp

/-- The block bytes `DataStore::batch` assembles equal `blockBytesD rows []`. -/
theorem batch_data_eq (rows : List (Pt × Val)) :
    setSlice (setSlice (setLiveBits (List.replicate (6 + (rows.length + 7) / 8) 0)
        rows.length ++ rows.flatMap serializeRow) 0
      (u32BE (setLiveBits (List.replicate (6 + (rows.length + 7) / 8) 0) rows.length ++
        rows.flatMap serializeRow).length)) 4 (u16BE ((rows.length + 7) / 8)) =
    blockBytesD rows [] := by
  set n := rows.length
  set payload := rows.flatMap serializeRow with hpayload
  set d1 := setLiveBits (List.replicate (6 + (n + 7) / 8) 0) n ++ payload with hd1
  have hlen1 : d1.length = 6 + (n + 7) / 8 + payload.length := by
    rw [hd1, List.length_append, setLiveBits_length, List.length_replicate]
  have hlen6 : 6 ≤ d1.length := by omega
  have h1 : setSlice d1 0 (u32BE d1.length) = u32BE d1.length ++ d1.drop 4 := by
    rw [setSlice_zero (by simp [u32BE]; omega)]
    simp [u32BE]
  rw [h1]
  have h2 : setSlice (u32BE d1.length ++ d1.drop 4) 4 (u16BE ((n + 7) / 8)) =
      u32BE d1.length ++ u16BE ((n + 7) / 8) ++ d1.drop 6 := by
    rw [setSlice_eq_append (by simp [u32BE, u16BE, List.length_drop]; omega)]
    rw [List.take_left' (by simp [u32BE]),
      show (4 : Nat) + (u16BE ((n + 7) / 8)).length = 4 + 2 from rfl]
    rw [List.drop_append_eq_append_drop]
    simp [u32BE, List.drop_drop]
  rw [h2]
  have h3 : d1.drop 6 = bitfieldBytes n ++ payload := by
    rw [hd1, List.drop_append_eq_append_drop]
    have : 6 - (setLiveBits (List.replicate (6 + (n + 7) / 8) 0) n).length = 0 := by
      rw [setLiveBits_length]; simp
    rw [this, List.drop_zero]
    rfl
  rw [h3, blockBytesD]
  show u32BE d1.length ++ u16BE ((n + 7) / 8) ++ (bitfieldBytes n ++ payload) =
    u32BE (6 + (n + 7) / 8 + payload.length) ++ u16BE ((n + 7) / 8) ++
      clearBits (bitfieldBytes n) [] ++ payload
  rw [hlen1]
  show _ = u32BE (6 + (n + 7) / 8 + payload.length) ++ u16BE ((n + 7) / 8) ++
      bitfieldBytes n ++ payload
  simp [List.append_assoc]

theorem ptBounds_isSome {rows : List (Pt × Val)} (h : rows ≠ []) :
    (ptBounds (rows.map (·.1))).isSome := by
  cases rows with
  | nil => exact absurd rfl h
  | cons r rest => rfl

/-- `DataStore::batch` on a within-capacity, non-empty rows list appends
`blockBytesD rows []` at end-of-store, appends one Range Index entry, and
returns the old store length as the block's address. -/
theorem batch_eq (st : DataStore) (rows : List (Pt × Val)) (bnd : Pt × Pt)
    (hmax : rows.length ≤ st.max_data_size)
    (hbnd : ptBounds (rows.map (·.1)) = some bnd) :
    DataStore.batch st rows = (.ok st.store.len,
      { st with store := ⟨st.store.bytes ++ blockBytesD rows []⟩,
                range := st.range.write (st.store.len, bnd, rows.length) }) := by
  simp only [DataStore.batch]
  rw [if_neg (by omega)]
  rw [batch_data_eq, Store.write_at_end, hbnd]

/-! ## Bitfield characterization -/

theorem getD_drop (l : List Nat) (k j : Nat) :
    (l.drop k).getD j 0 = l.getD (k + j) 0 := by
  simp [List.getD_eq_getElem?_getD, List.getElem?_drop]

theorem setLiveBits_drop6 (n : Nat) :
    ∀ data : List Nat, (setLiveBits data n).drop 6 =
      (List.range n).foldl (fun m i => setBitB m i) (data.drop 6) := by
  unfold setLiveBits
  generalize List.range n = l
  induction l with
  | nil => intro data; rfl
  | cons i rest ih =>
    intro data
    rw [List.foldl_cons, List.foldl_cons, ih]
    congr 1
    rw [List.drop_set, if_neg (by omega)]
    unfold setBitB
    rw [show 6 + i / 8 - 6 = i / 8 by omega, getD_drop]

theorem foldl_setBitB_length (l : List Nat) :
    ∀ m : List Nat, (l.foldl (fun acc i => setBitB acc i) m).length = m.length := by
  induction l with
  | nil => intro m; rfl
  | cons i rest ih =>
    intro m
    rw [List.foldl_cons, ih]
    simp [setBitB]

theorem getBit_foldl_setBitB (n : Nat) :
    ∀ (m : List Nat) (j : Nat), n ≤ 8 * m.length →
      getBitB ((List.range n).foldl (fun acc i => setBitB acc i) m) j =
        (getBitB m j || decide (j < n)) := by
  induction n with
  | zero => intro m j h; simp
  | succ n ih =>
    intro m j h
    rw [List.range_succ, List.foldl_append, List.foldl_cons, List.foldl_nil]
    have hFlen : ((List.range n).foldl (fun acc i => setBitB acc i) m).length = m.length :=
      foldl_setBitB_length _ m
    by_cases hj : j = n
    · subst hj
      rw [getBitB_setBitB_self (by rw [hFlen]; omega)]
      simp
    · rw [getBitB_setBitB_ne hj, ih m j (by omega)]
      have hd : decide (j < n) = decide (j < n + 1) := decide_eq_decide.mpr (by omega)
      rw [hd]

theorem getBit_bitfieldBytes (n j : Nat) :
    getBitB (bitfieldBytes n) j = decide (j < n) := by
  unfold bitfieldBytes
  rw [setLiveBits_drop6, List.drop_replicate]
  rw [getBit_foldl_setBitB n _ j (by simp; omega), getBitB_replicate_zero]
  simp

theorem testBit_clearMask {k t : Nat} (hk : k < 8) (ht : t < 8) :
    Nat.testBit (255 - 2 ^ k) t = decide (t ≠ k) := by
  have h : ∀ a b : Fin 8, Nat.testBit (255 - 2 ^ a.val) b.val = decide (b.val ≠ a.val) := by
    decide
  exact h ⟨k, hk⟩ ⟨t, ht⟩

theorem getBit_clear_single (m : List Nat) (k j : Nat) (hk : k / 8 < m.length) :
    getBitB (m.set (k / 8) (clearBitByte (m.getD (k / 8) 0) k)) j =
      (getBitB m j && decide (j ≠ k)) := by
  rw [getBitB_eq_testBit, getBitB_eq_testBit]
  by_cases hb : j / 8 = k / 8
  · rw [hb, getD_set_self _ _ hk]
    unfold clearBitByte
    rw [Nat.one_shiftLeft, Nat.testBit_and,
      testBit_clearMask (by omega) (by omega : j % 8 < 8)]
    by_cases hjk : j = k
    · subst hjk; simp
    · have hm8 : j % 8 ≠ k % 8 := by omega
      simp [hm8, hjk]
  · rw [getD_set_ne _ _ (by omega : k / 8 ≠ j / 8)]
    have hjk : j ≠ k := by omega
    simp [hjk]

theorem getBit_clearBits (dead : List Nat) :
    ∀ (m : List Nat) (j : Nat), (∀ k ∈ dead, k / 8 < m.length) →
      getBitB (clearBits m dead) j = (getBitB m j && !(dead.contains j)) := by
  induction dead with
  | nil => intro m j h; simp [clearBits]
  | cons k rest ih =>
    intro m j h
    have hc : clearBits m (k :: rest) =
        clearBits (m.set (k / 8) (clearBitByte (m.getD (k / 8) 0) k)) rest := rfl
    rw [hc, ih _ j (by
      intro k2 hk2
      simp only [List.length_set]
      exact h k2 (List.mem_cons_of_mem _ hk2))]
    rw [getBit_clear_single m k j (h k (List.mem_cons_self _ _))]
    rw [List.contains_cons]
    by_cases hjk : j = k
    · subst hjk; simp
    · have : (j == k) = false := by simp [hjk]
      simp [this, hjk, Bool.and_assoc]

/-! ## Parse/list round-trip -/

theorem parseRows_flatMap (BF : List Nat) (rows : List (Pt × Val)) :
    ∀ idx, parseRows BF (rows.flatMap serializeRow) idx =
      some (((List.enumFrom idx rows).filter (fun e => getBitB BF e.1)).map
        (fun e => (e.2.1, e.2.2, e.1))) := by
  induction rows with
  | nil => intro idx; rfl
  | cons r rest ih =>
    intro idx
    rw [List.flatMap_cons]
    show parseRows BF (r.1.val :: r.2.val :: rest.flatMap serializeRow) idx = _
    simp only [parseRows]
    rw [ih (idx + 1)]
    simp only [Option.bind_some, Option.bind_eq_bind]
    rw [List.enumFrom_cons]
    cases hbit : getBitB BF idx with
    | true =>
      have hdr : deserializeRow [r.1.val, r.2.val] = some r := deserializeRow_serializeRow r
      simp only [hbit, if_true, hdr, List.filter_cons]
      simp
    | false =>
      simp only [hbit, Bool.false_eq_true, if_false, List.filter_cons]
      simp [hbit]

theorem fst_lt_of_mem_enumFrom {rows : List (Pt × Val)} {e : Nat × Pt × Val}
    (he : e ∈ List.enumFrom 0 rows) : e.1 < rows.length := by
  have hm : e.1 ∈ List.map Prod.fst (List.enumFrom 0 rows) := List.mem_map_of_mem _ he
  rw [List.enumFrom_map_fst] at hm
  rcases List.mem_range'.mp hm with ⟨i, hi, hei⟩
  omega

theorem parse_blockD (rows : List (Pt × Val)) (dead : List Nat)
    (hfit : rows.length < 2 ^ 16) (hdead : ∀ k ∈ dead, k < rows.length) :
    DataStore.parse (u16BE ((rows.length + 7) / 8) ++
        (clearBits (bitfieldBytes rows.length) dead ++ rows.flatMap serializeRow)) =
      some ((rows.enum.filter (fun e => !(dead.contains e.1))).map
        (fun e => (e.2.1, e.2.2, e.1))) := by
  have hbf16 : (rows.length + 7) / 8 < 2 ^ 16 := by
    rw [show (2 : Nat) ^ 16 = 65536 from rfl] at hfit ⊢
    omega
  have hclen : (clearBits (bitfieldBytes rows.length) dead).length = (rows.length + 7) / 8 := by
    rw [clearBits_length, bitfieldBytes_length]
  show DataStore.parse (((rows.length + 7) / 8 / 256 % 256) :: ((rows.length + 7) / 8 % 256) ::
      (clearBits (bitfieldBytes rows.length) dead ++ rows.flatMap serializeRow)) = _
  simp only [DataStore.parse]
  rw [show u16FromBE ((rows.length + 7) / 8 / 256 % 256) ((rows.length + 7) / 8 % 256) =
    (rows.length + 7) / 8 from u16_roundtrip hbf16]
  rw [if_pos (by rw [List.length_append, hclen]; omega)]
  rw [List.take_left' hclen, List.drop_left' hclen]
  rw [parseRows_flatMap]
  congr 1
  rw [List.enum_eq_enumFrom]
  congr 1
  refine List.filter_congr ?_
  intro e he
  have hlt : e.1 < rows.length := fst_lt_of_mem_enumFrom he
  rw [getBit_clearBits dead _ e.1 (by
    intro k hk
    rw [bitfieldBytes_length]
    have := hdead k hk
    omega)]
  rw [getBit_bitfieldBytes]
  simp [hlt]

theorem read_block_at (base : List Nat) (rows : List (Pt × Val)) (dead : List Nat)
    (hfit : rows.length < 2 ^ 16) :
    read_block ⟨base ++ blockBytesD rows dead⟩ base.length =
      some (u16BE ((rows.length + 7) / 8) ++
        (clearBits (bitfieldBytes rows.length) dead ++ rows.flatMap serializeRow)) := by
  have hL : 6 + (rows.length + 7) / 8 + (rows.flatMap serializeRow).length =
      6 + (rows.length + 7) / 8 + 2 * rows.length := by
    rw [flatMap_serializeRow_length]
  have hlen : (blockBytesD rows dead).length = 6 + (rows.length + 7) / 8 + 2 * rows.length :=
    blockBytesD_length rows dead
  set L := 6 + (rows.length + 7) / 8 + 2 * rows.length with hLdef
  have hL32 : L < 2 ^ 32 := by
    rw [show (2 : Nat) ^ 16 = 65536 from rfl] at hfit
    rw [show (2 : Nat) ^ 32 = 4294967296 from rfl, hLdef]
    omega
  have hstore : (Store.mk (base ++ blockBytesD rows dead)).len = base.length + L := by
    simp [Store.len, hlen]
  simp only [read_block]
  rw [if_pos (by rw [hstore]; omega)]
  have hread4 : (Store.mk (base ++ blockBytesD rows dead)).read base.length 4 = u32BE L := by
    unfold Store.read
    rw [List.drop_left' rfl]
    unfold blockBytesD
    rw [hL]
    rw [List.append_assoc, List.append_assoc]
    exact List.take_left' rfl
  rw [hread4]
  have hdecode : u32FromBE ((u32BE L).getD 0 0) ((u32BE L).getD 1 0) ((u32BE L).getD 2 0)
      ((u32BE L).getD 3 0) = L := u32_roundtrip hL32
  rw [hdecode]
  rw [if_pos (by rw [hstore]; omega)]
  congr 1
  unfold Store.read
  have hdec : base.length + 4 = (base ++ u32BE L).length := by simp [u32BE]
  rw [hdec]
  have hsplit : base ++ blockBytesD rows dead =
      (base ++ u32BE L) ++ (u16BE ((rows.length + 7) / 8) ++
        (clearBits (bitfieldBytes rows.length) dead ++ rows.flatMap serializeRow)) := by
    unfold blockBytesD
    rw [hL]
    simp [List.append_assoc]
  rw [hsplit, List.drop_left]
  refine List.take_of_length_le ?_
  simp only [List.length_append, u16BE, List.length_cons, List.length_nil,
    clearBits_length, bitfieldBytes_length, flatMap_serializeRow_length]
  omega

/-- `DataStore::list` on a (possibly tombstoned) committed block with a
cold list-cache: read, parse, tag with `Location = (offset+1, index)`,
cache the result. -/
theorem list_at (st : DataStore) (base : List Nat) (rows : List (Pt × Val)) (dead : List Nat)
    (hst : st.store.bytes = base ++ blockBytesD rows dead)
    (hcache : alistGet st.list_cache base.length = none)
    (hfit : rows.length < 2 ^ 16) (hdead : ∀ k ∈ dead, k < rows.length) :
    st.list base.length = (.ok (liveTagged base.length rows dead),
      { st with list_cache :=
          alistPut st.list_cache base.length (liveTagged base.length rows dead) }) := by
  have hs : st.store = ⟨base ++ blockBytesD rows dead⟩ := by
    have : st.store = ⟨st.store.bytes⟩ := rfl
    rw [this, hst]
  simp only [DataStore.list, hcache, hs, read_block_at base rows dead hfit,
    parse_blockD rows dead hfit hdead, List.map_map]
  rfl

/-! ## Claim C4 — batch/list round-trip -/

/-- Claim C4: for every non-empty rows list of at most `max_data_size`
rows (whose count fits the on-disk `u16` bitfield-length field, spec §6),
`DataStore::batch` returns the end-of-store offset `A`, and a subsequent
`list(A)` (with no stale cache entry at the fresh offset `A`) returns
exactly those rows in original order, each tagged with a `Location` whose
first component is `A + 1` and whose second component is the row's
original index. -/
theorem c4_batch_list_roundtrip (st : DataStore) (rows : List (Pt × Val))
    (hne : rows ≠ []) (hmax : rows.length ≤ st.max_data_size)
    (hfit : rows.length < 2 ^ 16)
    (hcache : alistGet st.list_cache st.store.len = none) :
    (DataStore.batch st rows).1 = .ok st.store.len ∧
    (((DataStore.batch st rows).2).list st.store.len).1 =
      .ok (rows.enum.map (fun e => (e.2.1, e.2.2, (st.store.len + 1, e.1)))) := by
  rcases Option.isSome_iff_exists.mp (ptBounds_isSome hne) with ⟨bnd, hbnd⟩
  have hb := batch_eq st rows bnd hmax hbnd
  have hlist := list_at (DataStore.batch st rows).2 st.store.bytes rows []
    (by rw [hb]) (by rw [hb]; exact hcache) hfit (by intro k hk; cases hk)
  have hA : (st.store.bytes).length = st.store.len := rfl
  rw [hA] at hlist
  constructor
  · rw [hb]
  · rw [hlist]
    unfold liveTagged
    have hfilter : rows.enum.filter (fun e => !(List.contains [] e.1)) = rows.enum := by
      simp [List.contains]
    rw [hfilter]

/-- Witness for C4 at a concrete input: batching `[(1,2),(3,4)]` into a
fresh store returns offset 0 and `list 0` returns both rows tagged
`(1,0)` and `(1,1)`. -/
theorem c4_batch_list_roundtrip_witness :
    (DataStore.batch (DataStore.open 10) [(1, 2), (3, 4)]).1 = .ok 0 ∧
    (((DataStore.batch (DataStore.open 10) [(1, 2), (3, 4)]).2).list 0).1 =
      .ok [(1, 2, (1, 0)), (3, 4, (1, 1))] :=
  c4_batch_list_roundtrip (DataStore.open 10) [(1, 2), (3, 4)]
    (by simp) (by simp [DataStore.open]) (by simp) (by rfl)

/-! ## Claim C7 — merge compaction -/

/-- `DataStore::list` on a cached offset returns the cached rows and
leaves the state untouched. -/
theorem list_cache_hit (st : DataStore) (offset : Nat)
    (rows : List (Pt × Val × (Nat × Nat)))
    (h : alistGet st.list_cache offset = some rows) :
    st.list offset = (.ok rows, st) := by
  simp only [DataStore.list, h]

/-- Claim C7: `DataMerge::batch` on a single `(range, address)` row
returns that address unchanged without touching the store or caches; on
two addresses `A` and `B` holding single live rows `la` and `lb` (their
cached row lists), it returns the fresh end-of-store address `C` with
`C ≠ A` and `C ≠ B`, and `list(C)` yields exactly the concatenation of
the two rows, re-tagged `(C+1, 0)` and `(C+1, 1)`. -/
theorem c7_merge_compaction (st : DataStore) (r : (Pt × Pt) × Nat)
    (rA rB : (Pt × Pt) × Nat) (la lb : Pt × Val × (Nat × Nat))
    (hA : alistGet st.list_cache rA.2 = some [la])
    (hB : alistGet st.list_cache rB.2 = some [lb])
    (hAlt : rA.2 < st.store.len) (hBlt : rB.2 < st.store.len)
    (hmax : 2 ≤ st.max_data_size)
    (hCcache : alistGet st.list_cache st.store.len = none) :
    DataMerge.batch st [r] = (.ok r.2, st) ∧
    (DataMerge.batch st [rA, rB]).1 = .ok st.store.len ∧
    st.store.len ≠ rA.2 ∧ st.store.len ≠ rB.2 ∧
    (((DataMerge.batch st [rA, rB]).2).list st.store.len).1 =
      .ok [(la.1, la.2.1, (st.store.len + 1, 0)), (lb.1, lb.2.1, (st.store.len + 1, 1))] := by
  have hcomb : DataMerge.combine st [rA, rB] =
      (.ok [(la.1, la.2.1), (lb.1, lb.2.1)], st) := by
    simp only [DataMerge.combine, list_cache_hit st rA.2 [la] hA,
      list_cache_hit st rB.2 [lb] hB]
    rfl
  have hbatch : DataMerge.batch st [rA, rB] = st.batch [(la.1, la.2.1), (lb.1, lb.2.1)] := by
    have hb : DataMerge.batch st [rA, rB] =
        (match DataMerge.combine st [rA, rB] with
         | (.error e, st2) => (.error e, st2)
         | (.ok combined, st2) =>
           if st.max_data_size < combined.length then (.error .capacity, st2)
           else st2.batch combined) := rfl
    rw [hb, hcomb]
    show (if st.max_data_size < 2 then _ else _) = _
    rw [if_neg (by omega)]
  have hroundtrip := c4_batch_list_roundtrip st [(la.1, la.2.1), (lb.1, lb.2.1)]
    (by simp) (by simp; omega) (by simp) hCcache
  refine ⟨rfl, ?_, by omega, by omega, ?_⟩
  · rw [hbatch]
    exact hroundtrip.1
  · rw [hbatch]
    rw [hroundtrip.2]
    rfl

/-! ## Claim C2 — delete lemmas -/

theorem Store.write_in_bounds (s : Store) (off : Nat) (w : List Nat)
    (h : off + w.length ≤ s.len) :
    (s.write off w).bytes = s.bytes.take off ++ w ++ s.bytes.drop (off + w.length) := by
  simp only [Store.write]
  rw [show off + w.length - s.bytes.length = 0 from by unfold Store.len at h; omega,
    List.replicate_zero, List.append_nil]

theorem getD_append_right (s t : List Nat) (j : Nat) :
    (s ++ t).getD (s.length + j) 0 = t.getD j 0 := by
  rw [List.getD_eq_getElem?_getD, List.getD_eq_getElem?_getD,
    List.getElem?_append_right (by omega), show s.length + j - s.length = j from by omega]

theorem contains_append (l1 l2 : List Nat) (a : Nat) :
    (l1 ++ l2).contains a = (l1.contains a || l2.contains a) := by
  induction l1 with
  | nil => simp
  | cons x rest ih =>
    rw [List.cons_append, List.contains_cons, List.contains_cons, ih, Bool.or_assoc]

theorem set_getD_self (m : List Nat) (j : Nat) (h : j < m.length) :
    m.set j (m.getD j 0) = m := by
  rw [List.getD_eq_getElem?_getD, List.getElem?_eq_getElem h]
  show m.set j m[j] = m
  apply List.ext_getElem?
  intro i
  by_cases hij : i = j
  · subst hij
    simp [List.getElem?_set_self, h, List.getElem?_eq_getElem h]
  · simp [List.getElem?_set_ne (by omega : j ≠ i)]

theorem clearBits_append_single (m : List Nat) (dead : List Nat) (k : Nat) :
    clearBits m (dead ++ [k]) =
      (clearBits m dead).set (k / 8)
        (clearBitByte ((clearBits m dead).getD (k / 8) 0) k) := by
  unfold clearBits
  rw [List.foldl_append, List.foldl_cons, List.foldl_nil]

/-- One `DataStore::deleteBlock` call against the block at `base.length`
encoding `rows` with tombstones `dead`: all the `ensure!` guards pass for
a live index `k < rows.length`, the bitfield prefix is read, bit `k` is
cleared and written back in place, and a cached row list (when present)
is pruned in place. -/
theorem deleteBlock_at (st : DataStore) (base : List Nat) (rows : List (Pt × Val))
    (dead : List Nat) (k : Nat)
    (hst : st.store.bytes = base ++ blockBytesD rows dead)
    (hk : k < rows.length) (hfit : rows.length < 2 ^ 16) :
    st.deleteBlock base.length [k] = (.ok (), { st with
      store := ⟨base ++ blockBytesD rows (dead ++ [k])⟩,
      list_cache :=
        match alistGet st.list_cache base.length with
        | some rows2 =>
          alistPut st.list_cache base.length
            (rows2.filter (fun row => ¬ [k].contains row.2.2.2))
        | none => st.list_cache }) := by
  set n := rows.length with hn
  set bf := (n + 7) / 8 with hbf
  set C := clearBits (bitfieldBytes n) dead with hC
  set P := rows.flatMap serializeRow with hP
  set L := 6 + bf + P.length with hLd
  have hPlen : P.length = 2 * n := flatMap_serializeRow_length rows
  have hClen : C.length = bf := by rw [hC, clearBits_length, bitfieldBytes_length]
  have hblock : blockBytesD rows dead = u32BE L ++ u16BE bf ++ C ++ P := rfl
  have hstlen : st.store.len = base.length + (6 + bf + 2 * n) := by
    show st.store.bytes.length = _
    rw [hst, List.length_append, blockBytesD_length]
  have hk8 : k / 8 + 1 ≤ bf := by rw [hbf]; omega
  have hL32 : L < 2 ^ 32 := by
    rw [show (2 : Nat) ^ 16 = 65536 from rfl] at hfit
    rw [show (2 : Nat) ^ 32 = 4294967296 from rfl, hLd, hbf]
    omega
  have hbf16 : bf < 2 ^ 16 := by
    rw [show (2 : Nat) ^ 16 = 65536 from rfl] at hfit ⊢
    rw [hbf]
    omega
  have hheader : st.store.read base.length (7 + k / 8) =
      (u32BE L ++ u16BE bf) ++ C.take (k / 8 + 1) := by
    unfold Store.read
    rw [hst, List.drop_left' rfl, hblock]
    rw [@List.take_append_eq_append_take _ (u32BE L ++ u16BE bf ++ C) _ _]
    rw [show 7 + k / 8 - (u32BE L ++ u16BE bf ++ C).length = 0 from by
      simp [u32BE, u16BE, hClen]; omega]
    rw [List.take_zero, List.append_nil]
    rw [@List.take_append_eq_append_take _ (u32BE L ++ u16BE bf) _ _]
    rw [List.take_of_length_le (l := u32BE L ++ u16BE bf) (by simp [u32BE, u16BE]; omega)]
    rw [show 7 + k / 8 - (u32BE L ++ u16BE bf).length = k / 8 + 1 from by
      simp [u32BE, u16BE]; omega]
  have hv : ((u32BE L ++ u16BE bf) ++ C.take (k / 8 + 1)).getD (6 + k / 8) 0 =
      C.getD (k / 8) 0 := by
    rw [show (6 : Nat) + k / 8 = (u32BE L ++ u16BE bf).length + k / 8 from by
      simp [u32BE, u16BE]]
    rw [getD_append_right]
    rw [List.getD_eq_getElem?_getD, List.getElem?_take, if_pos (by omega),
      ← List.getD_eq_getElem?_getD]
  have hset : ((u32BE L ++ u16BE bf) ++ C.take (k / 8 + 1)).set (6 + k / 8)
        (clearBitByte (C.getD (k / 8) 0) k) =
      (u32BE L ++ u16BE bf) ++
        (C.take (k / 8 + 1)).set (k / 8) (clearBitByte (C.getD (k / 8) 0) k) := by
    rw [List.set_append_right _ _ (by simp [u32BE, u16BE])]
    congr 2
    simp [u32BE, u16BE]
  have hmid : (C.take (k / 8 + 1)).set (k / 8) (clearBitByte (C.getD (k / 8) 0) k) ++
      C.drop (k / 8 + 1) = C.set (k / 8) (clearBitByte (C.getD (k / 8) 0) k) := by
    rw [List.set_eq_take_append_cons_drop (l := C.take (k / 8 + 1)),
      if_pos (by simp [List.length_take]; omega)]
    rw [List.take_take, show min (k / 8) (k / 8 + 1) = k / 8 from by omega]
    rw [List.drop_eq_nil_of_le (by simp [List.length_take])]
    rw [List.set_eq_take_append_cons_drop (l := C), if_pos (by omega)]
    simp
  simp only [DataStore.deleteBlock, show List.max? [k] = some k from rfl]
  rw [if_neg (not_not_intro (by rw [hstlen]; omega))]
  rw [hheader]
  have h0 : ((u32BE L ++ u16BE bf) ++ C.take (k / 8 + 1)).getD 0 0 = L / 2 ^ 24 % 256 := rfl
  have h1 : ((u32BE L ++ u16BE bf) ++ C.take (k / 8 + 1)).getD 1 0 = L / 2 ^ 16 % 256 := rfl
  have h2 : ((u32BE L ++ u16BE bf) ++ C.take (k / 8 + 1)).getD 2 0 = L / 2 ^ 8 % 256 := rfl
  have h3 : ((u32BE L ++ u16BE bf) ++ C.take (k / 8 + 1)).getD 3 0 = L % 256 := rfl
  have h4 : ((u32BE L ++ u16BE bf) ++ C.take (k / 8 + 1)).getD 4 0 = bf / 256 % 256 := rfl
  have h5 : ((u32BE L ++ u16BE bf) ++ C.take (k / 8 + 1)).getD 5 0 = bf % 256 := rfl
  rw [h0, h1, h2, h3, h4, h5, u32_roundtrip hL32, u16_roundtrip hbf16]
  rw [if_neg (not_not_intro (by omega))]
  rw [if_neg (not_not_intro (by omega))]
  rw [List.foldl_cons, List.foldl_nil, hv, hset]
  rw [List.drop_left' (by simp [u32BE, u16BE])]
  have hw : st.store.write (base.length + 6)
        ((C.take (k / 8 + 1)).set (k / 8) (clearBitByte (C.getD (k / 8) 0) k)) =
      ⟨base ++ blockBytesD rows (dead ++ [k])⟩ := by
    have hwlen : ((C.take (k / 8 + 1)).set (k / 8)
        (clearBitByte (C.getD (k / 8) 0) k)).length = k / 8 + 1 := by
      simp [List.length_take]
      omega
    have hblock2 : blockBytesD rows (dead ++ [k]) =
        u32BE L ++ u16BE bf ++ clearBits (bitfieldBytes n) (dead ++ [k]) ++ P := rfl
    have hb : (st.store.write (base.length + 6)
          ((C.take (k / 8 + 1)).set (k / 8) (clearBitByte (C.getD (k / 8) 0) k))).bytes =
        base ++ blockBytesD rows (dead ++ [k]) := by
      rw [Store.write_in_bounds _ _ _ (by rw [hwlen, hstlen]; omega)]
      rw [hst, hblock, hwlen]
      rw [List.take_append_eq_append_take,
        List.take_of_length_le (l := base) (by omega),
        show base.length + 6 - base.length = 6 from by omega]
      rw [@List.take_append_eq_append_take _ (u32BE L ++ u16BE bf ++ C) _ _,
        @List.take_append_eq_append_take _ (u32BE L ++ u16BE bf) _ _,
        List.take_of_length_le (l := u32BE L ++ u16BE bf) (by simp [u32BE, u16BE]),
        show (6 : Nat) - (u32BE L ++ u16BE bf).length = 0 from by simp [u32BE, u16BE],
        List.take_zero, List.append_nil,
        show (6 : Nat) - (u32BE L ++ u16BE bf ++ C).length = 0 from by
          simp [u32BE, u16BE, hClen],
        List.take_zero, List.append_nil]
      rw [List.drop_append_eq_append_drop,
        @List.drop_eq_nil_of_le _ base _ (by omega),
        show base.length + 6 + (k / 8 + 1) - base.length = 6 + (k / 8 + 1) from by omega]
      rw [@List.drop_append_eq_append_drop _ (u32BE L ++ u16BE bf ++ C) _ _,
        @List.drop_append_eq_append_drop _ (u32BE L ++ u16BE bf) _ _,
        @List.drop_eq_nil_of_le _ (u32BE L ++ u16BE bf) _ (by simp [u32BE, u16BE]),
        show 6 + (k / 8 + 1) - (u32BE L ++ u16BE bf).length = k / 8 + 1 from by
          simp [u32BE, u16BE],
        show 6 + (k / 8 + 1) - (u32BE L ++ u16BE bf ++ C).length = 0 from by
          simp [u32BE, u16BE, hClen]; omega,
        List.drop_zero, List.nil_append]
      rw [hblock2, clearBits_append_single, ← hC]
      rw [← hmid]
      simp [List.append_assoc]
    have heta : st.store.write (base.length + 6)
          ((C.take (k / 8 + 1)).set (k / 8) (clearBitByte (C.getD (k / 8) 0) k)) =
        ⟨(st.store.write (base.length + 6)
          ((C.take (k / 8 + 1)).set (k / 8) (clearBitByte (C.getD (k / 8) 0) k))).bytes⟩ := rfl
    rw [heta, hb]
  rw [hw]

theorem groupByBlock_single (A k : Nat) : groupByBlock [(A + 1, k)] = [(A, [k])] := by
  simp [groupByBlock, alistGet]

/-- One `DataStore::delete` call with a single committed location. -/
theorem delete_at (st : DataStore) (base : List Nat) (rows : List (Pt × Val))
    (dead : List Nat) (k : Nat)
    (hst : st.store.bytes = base ++ blockBytesD rows dead)
    (hk : k < rows.length) (hfit : rows.length < 2 ^ 16) :
    st.delete [(base.length + 1, k)] = (.ok (), { st with
      store := ⟨base ++ blockBytesD rows (dead ++ [k])⟩,
      list_cache :=
        match alistGet st.list_cache base.length with
        | some rows2 =>
          alistPut st.list_cache base.length
            (rows2.filter (fun row => ¬ [k].contains row.2.2.2))
        | none => st.list_cache }) := by
  unfold DataStore.delete
  rw [groupByBlock_single]
  simp only [DataStore.deleteLoop, deleteBlock_at st base rows dead k hst hk hfit]

/-- `DataStore::delete` of one location with a cold list-cache: only the
bitfield byte in the store changes. -/
theorem delete_cold (st : DataStore) (base : List Nat) (rows : List (Pt × Val))
    (dead : List Nat) (k : Nat)
    (hst : st.store.bytes = base ++ blockBytesD rows dead)
    (hk : k < rows.length) (hfit : rows.length < 2 ^ 16)
    (hc : alistGet st.list_cache base.length = none) :
    st.delete [(base.length + 1, k)] =
      (.ok (), { st with store := ⟨base ++ blockBytesD rows (dead ++ [k])⟩ }) := by
  rw [delete_at st base rows dead k hst hk hfit]
  simp only [hc]

/-- `DataStore::delete` of one location with the block's rows in the
list-cache: the store's bitfield byte changes and the cached row list is
pruned in place. -/
theorem delete_warm (st : DataStore) (base : List Nat) (rows : List (Pt × Val))
    (dead : List Nat) (k : Nat) (cached : List (Pt × Val × (Nat × Nat)))
    (hst : st.store.bytes = base ++ blockBytesD rows dead)
    (hk : k < rows.length) (hfit : rows.length < 2 ^ 16)
    (hc : alistGet st.list_cache base.length = some cached) :
    st.delete [(base.length + 1, k)] =
      (.ok (), { st with
        store := ⟨base ++ blockBytesD rows (dead ++ [k])⟩,
        list_cache := alistPut st.list_cache base.length
          (cached.filter (fun row => ¬ [k].contains row.2.2.2)) }) := by
  rw [delete_at st base rows dead k hst hk hfit]
  simp only [hc]

theorem deleteSeq_cold (base : List Nat) (rows : List (Pt × Val))
    (hfit : rows.length < 2 ^ 16) :
    ∀ (ks dead : List Nat) (st : DataStore),
      st.store.bytes = base ++ blockBytesD rows dead →
      alistGet st.list_cache base.length = none →
      (∀ k ∈ ks, k < rows.length) →
      deleteSeq st base.length ks =
        { st with store := ⟨base ++ blockBytesD rows (dead ++ ks)⟩ } := by
  intro ks
  induction ks with
  | nil =>
    intro dead st hst hc hk
    show st = _
    rw [List.append_nil]
    have hs : st.store = ⟨base ++ blockBytesD rows dead⟩ := by
      rw [show st.store = ⟨st.store.bytes⟩ from rfl, hst]
    rw [← hs]
  | cons k rest ih =>
    intro dead st hst hc hk
    show deleteSeq (st.delete [(base.length + 1, k)]).2 base.length rest = _
    have hd := delete_cold st base rows dead k hst (hk k (List.mem_cons_self _ _)) hfit hc
    rw [show (st.delete [(base.length + 1, k)]).2 =
        { st with store := ⟨base ++ blockBytesD rows (dead ++ [k])⟩ } from by rw [hd]]
    rw [ih (dead ++ [k]) { st with store := ⟨base ++ blockBytesD rows (dead ++ [k])⟩ }
      rfl hc (fun k2 hk2 => hk k2 (List.mem_cons_of_mem _ hk2))]
    rw [show dead ++ [k] ++ rest = dead ++ (k :: rest) from by simp]

/-! ## Live-row bookkeeping -/

theorem liveTagged_append_filter (A : Nat) (rows : List (Pt × Val)) (dead : List Nat)
    (k : Nat) :
    liveTagged A rows (dead ++ [k]) =
      (liveTagged A rows dead).filter (fun r => decide (r.2.2.2 ≠ k)) := by
  unfold liveTagged
  rw [List.filter_map, List.filter_filter]
  congr 1
  refine (List.filter_congr ?_).symm
  intro e he
  show ((fun r : Pt × Val × Nat × Nat => decide (r.2.2.2 ≠ k))
      ((fun e : Nat × Pt × Val => (e.2.1, e.2.2, (A + 1, e.1))) e) &&
      !(List.contains dead e.1)) = !(List.contains (dead ++ [k]) e.1)
  show (decide (e.1 ≠ k) && !(List.contains dead e.1)) = !(List.contains (dead ++ [k]) e.1)
  rw [contains_append, Bool.not_or, List.contains_cons]
  simp only [beq_eq_decide, decide_not, List.contains, List.elem_nil, Bool.or_false]
  rw [Bool.and_comm]
  congr 1
  congr 1
  exact decide_eq_decide.mpr Iff.rfl

theorem countP_enum_fst (rows : List (Pt × Val)) (f : Nat → Bool) :
    ∀ i, (List.enumFrom i rows).countP (fun e => f e.1) =
      (List.range' i rows.length).countP f := by
  induction rows with
  | nil => intro i; rfl
  | cons r rest ih =>
    intro i
    rw [List.enumFrom_cons,
      show List.range' i (r :: rest).length = i :: List.range' (i + 1) rest.length from rfl]
    rw [List.countP_cons, List.countP_cons, ih (i + 1)]

theorem liveTagged_length_succ (A : Nat) (rows : List (Pt × Val)) (dead : List Nat)
    (k : Nat) (hk : k < rows.length) (hkd : ¬ dead.contains k) :
    (liveTagged A rows dead).length = (liveTagged A rows (dead ++ [k])).length + 1 := by
  unfold liveTagged
  rw [List.length_map, List.length_map, ← List.countP_eq_length_filter,
    ← List.countP_eq_length_filter, List.enum_eq_enumFrom]
  refine Eq.trans (countP_enum_fst rows (fun j => !(dead.contains j)) 0) ?_
  refine Eq.trans ?_ (congrArg (fun x => x + 1)
    (countP_enum_fst rows (fun j => !((dead ++ [k]).contains j)) 0).symm)
  rw [← List.range_eq_range']
  refine countP_range_set hk (fun j => !(dead.contains j))
    (fun j => !((dead ++ [k]).contains j)) ?_ ?_ ?_
  · intro j hj
    show (!(dead.contains j)) = !((dead ++ [k]).contains j)
    rw [contains_append, List.contains_cons]
    have hb : (j == k) = false := by simp [hj]
    simp [hb]
  · show (!(dead.contains k)) = true
    cases h : dead.contains k
    · rfl
    · exact absurd h hkd
  · show (!((dead ++ [k]).contains k)) = false
    rw [contains_append, List.contains_cons]
    simp

theorem clearBitByte_idem (b k : Nat) :
    clearBitByte (clearBitByte b k) k = clearBitByte b k := by
  unfold clearBitByte
  rw [Nat.and_assoc, Nat.and_self]

theorem clearBits_append_same (m : List Nat) (d : List Nat) (k : Nat)
    (hk8 : k / 8 < m.length) :
    clearBits m (d ++ [k] ++ [k]) = clearBits m (d ++ [k]) := by
  rw [clearBits_append_single m (d ++ [k]) k]
  rw [clearBits_append_single m d k]
  rw [getD_set_self _ _ (by rw [clearBits_length]; exact hk8)]
  rw [clearBitByte_idem, List.set_set]

/-- `DataStore::bbox` with a cold range-cache: computed from the live
rows via `list`. -/
theorem bbox_cold (st : DataStore) (A : Nat) (bnd : Pt × Pt)
    (lv : List (Pt × Val × (Nat × Nat))) (st2 : DataStore)
    (hrange : alistGet st.range.cache A = none)
    (hlist : st.list A = (.ok lv, st2))
    (hbnd : ptBounds (lv.map (·.1)) = some bnd) :
    (st.bbox A).1 = .ok (some (bnd, lv.length)) := by
  have hne : lv.isEmpty = false := by
    cases lv with
    | nil => exact absurd hbnd (by simp [ptBounds])
    | cons x r => rfl
  simp only [DataStore.bbox, hrange, hlist, hne, Bool.false_eq_true, if_false, hbnd]

theorem filter_not_contains_singleton (l : List (Pt × Val × (Nat × Nat))) (k : Nat) :
    l.filter (fun row => ¬ [k].contains row.2.2.2) =
      l.filter (fun r => decide (r.2.2.2 ≠ k)) := by
  refine List.filter_congr ?_
  intro r hr
  show (decide ¬([k].contains r.2.2.2 = true)) = decide (r.2.2.2 ≠ k)
  refine decide_eq_decide.mpr ?_
  simp [List.contains_cons]

/-- Claim C2: COUNTEREXAMPLE.  `DataStore::delete` never invalidates the
bbox (range) LRU cache: batch two rows at offset 0, call `bbox 0` (which
caches `(bounds, 2)`), delete row 1, and `bbox 0` still reports a live
row count of 2 while `list 0` holds a single live row — the claimed
decrease of the `bbox` row count does not hold when the entry is cached. -/
theorem c2_bbox_stale_counterexample :
    (((((DataStore.batch (DataStore.open 10) [(1, 2), (3, 4)]).2.bbox 0).2.delete
        [(1, 1)]).2.bbox 0).1 = .ok (some ((1, 3), 2))) ∧
    (((((DataStore.batch (DataStore.open 10) [(1, 2), (3, 4)]).2.bbox 0).2.delete
        [(1, 1)]).2.list 0).1 = .ok [(1, 2, (1, 0))]) := by
  constructor
  · rfl
  · rfl

/-- Claim C2 (amended): for a block of `rows` batched at offset `A` and
then subjected to any sequence of single-index deletes `dead`, deleting a
further live index `k` succeeds; a subsequent `list A` (cold or warm list
cache) returns exactly the previously live rows minus row `k`; `bbox A`
recomputed from the live rows (the range cache holds no entry for `A` —
`delete` never invalidates that cache, see the counterexample) reports a
live count one lower than before; and re-deleting `k` is idempotent: it
returns `ok` and leaves the entire state unchanged. -/
theorem c2_delete_reflected (st0 : DataStore) (rows : List (Pt × Val)) (dead : List Nat)
    (k : Nat) (bnd2 : Pt × Pt)
    (hmax : rows.length ≤ st0.max_data_size)
    (hfit : rows.length < 2 ^ 16)
    (hk : k < rows.length)
    (hkd : ¬ dead.contains k)
    (hdead : ∀ j ∈ dead, j < rows.length)
    (hcache : alistGet st0.list_cache st0.store.len = none)
    (hrange : alistGet st0.range.cache st0.store.len = none)
    (hbnd2 : ptBounds ((liveTagged st0.store.len rows (dead ++ [k])).map (·.1)) = some bnd2) :
    ((deleteSeq (DataStore.batch st0 rows).2 st0.store.len dead).list st0.store.len).1 =
      .ok (liveTagged st0.store.len rows dead) ∧
    ((deleteSeq (DataStore.batch st0 rows).2 st0.store.len dead).delete
      [(st0.store.len + 1, k)]).1 = .ok () ∧
    (((deleteSeq (DataStore.batch st0 rows).2 st0.store.len dead).delete
      [(st0.store.len + 1, k)]).2.list st0.store.len).1 =
      .ok (liveTagged st0.store.len rows (dead ++ [k])) ∧
    liveTagged st0.store.len rows (dead ++ [k]) =
      (liveTagged st0.store.len rows dead).filter (fun r => decide (r.2.2.2 ≠ k)) ∧
    (((deleteSeq (DataStore.batch st0 rows).2 st0.store.len dead).delete
      [(st0.store.len + 1, k)]).2.bbox st0.store.len).1 =
      .ok (some (bnd2, (liveTagged st0.store.len rows (dead ++ [k])).length)) ∧
    (liveTagged st0.store.len rows dead).length =
      (liveTagged st0.store.len rows (dead ++ [k])).length + 1 ∧
    (((deleteSeq (DataStore.batch st0 rows).2 st0.store.len dead).delete
      [(st0.store.len + 1, k)]).2.delete [(st0.store.len + 1, k)]) =
      (.ok (), ((deleteSeq (DataStore.batch st0 rows).2 st0.store.len dead).delete
        [(st0.store.len + 1, k)]).2) ∧
    ((((deleteSeq (DataStore.batch st0 rows).2 st0.store.len dead).list
        st0.store.len).2.delete [(st0.store.len + 1, k)]).2.list st0.store.len).1 =
      .ok (liveTagged st0.store.len rows (dead ++ [k])) := by
  have hne : rows ≠ [] := by
    intro hr
    rw [hr] at hk
    simp at hk
  rcases Option.isSome_iff_exists.mp (ptBounds_isSome hne) with ⟨bnd, hbnd⟩
  have hdead2 : ∀ j ∈ dead ++ [k], j < rows.length := by
    intro j hj
    rcases List.mem_append.mp hj with h | h
    · exact hdead j h
    · simp only [List.mem_singleton] at h
      subst h
      exact hk
  rw [show st0.store.len = st0.store.bytes.length from rfl] at *
  set base := st0.store.bytes with hbase
  have h2 : (DataStore.batch st0 rows).2 = { st0 with
      store := ⟨base ++ blockBytesD rows []⟩,
      range := st0.range.write (base.length, bnd, rows.length) } := by
    rw [batch_eq st0 rows bnd hmax hbnd]
    rfl
  set S1 : DataStore := { st0 with
    store := ⟨base ++ blockBytesD rows []⟩,
    range := st0.range.write (base.length, bnd, rows.length) } with hS1
  have hD : deleteSeq S1 base.length dead = { S1 with
      store := ⟨base ++ blockBytesD rows dead⟩ } := by
    rw [deleteSeq_cold base rows hfit dead [] S1 rfl hcache hdead]
    rw [List.nil_append]
  set SD : DataStore := { S1 with store := ⟨base ++ blockBytesD rows dead⟩ } with hSD
  have hlistD := list_at SD base rows dead rfl hcache hfit hdead
  have hdel := delete_cold SD base rows dead k rfl hk hfit hcache
  set SD2 : DataStore := { SD with store := ⟨base ++ blockBytesD rows (dead ++ [k])⟩ }
    with hSD2
  have hdel2 : (SD.delete [(base.length + 1, k)]).2 = SD2 := by rw [hdel]
  have hlistD2 := list_at SD2 base rows (dead ++ [k]) rfl hcache hfit hdead2
  refine ⟨?_, ?_, ?_, ?_, ?_, ?_, ?_, ?_⟩
  · rw [h2, hD, hlistD]
  · rw [h2, hD, hdel]
  · rw [h2, hD, hdel2, hlistD2]
  · exact liveTagged_append_filter base.length rows dead k
  · rw [h2, hD, hdel2]
    exact bbox_cold SD2 base.length bnd2 _ _ hrange hlistD2 hbnd2
  · exact liveTagged_length_succ base.length rows dead k hk hkd
  · rw [h2, hD, hdel2]
    have hidem := delete_cold SD2 base rows (dead ++ [k]) k rfl hk hfit hcache
    rw [hidem]
    have hbb : blockBytesD rows (dead ++ [k] ++ [k]) = blockBytesD rows (dead ++ [k]) := by
      unfold blockBytesD
      rw [clearBits_append_same _ _ _ (by
        rw [bitfieldBytes_length]
        omega)]
    rw [hbb]
  · set SDC : DataStore := { SD with list_cache := alistPut SD.list_cache base.length (liveTagged base.length rows dead) } with hSDC
    have hlc : (SD.list base.length).2 = SDC := by rw [hlistD]
    have hfl : (liveTagged base.length rows dead).filter
        (fun row => ¬ [k].contains row.2.2.2) =
        liveTagged base.length rows (dead ++ [k]) := by
      rw [filter_not_contains_singleton, ← liveTagged_append_filter]
    have hwarm := delete_warm SDC base rows dead k (liveTagged base.length rows dead)
      rfl hk hfit (alistGet_put_self _ _ _)
    rw [hfl] at hwarm
    have hw2 : (SDC.delete [(base.length + 1, k)]).2.list base.length =
        (.ok (liveTagged base.length rows (dead ++ [k])),
          (SDC.delete [(base.length + 1, k)]).2) := by
      rw [hwarm]
      exact list_cache_hit _ base.length _ (alistGet_put_self _ _ _)
    rw [h2, hD, hlc, hw2]

/-- Witness for C2 (amended) at a concrete input: three rows batched at
offset 0, row 0 already deleted; deleting row 2 leaves exactly row 1
live, bbox reports `((3,3), 1)`, and re-deleting row 2 changes nothing. -/
theorem c2_delete_reflected_witness :
    ((deleteSeq (DataStore.batch (DataStore.open 10) [(1, 2), (3, 4), (5, 6)]).2 0
        [0]).delete [(1, 2)]).1 = .ok () ∧
    (((deleteSeq (DataStore.batch (DataStore.open 10) [(1, 2), (3, 4), (5, 6)]).2 0
        [0]).delete [(1, 2)]).2.list 0).1 = .ok (liveTagged 0 [(1, 2), (3, 4), (5, 6)] [0, 2]) ∧
    (((deleteSeq (DataStore.batch (DataStore.open 10) [(1, 2), (3, 4), (5, 6)]).2 0
        [0]).delete [(1, 2)]).2.bbox 0).1 =
      .ok (some ((3, 3), (liveTagged 0 [(1, 2), (3, 4), (5, 6)] [0, 2]).length)) := by
  have h := c2_delete_reflected (DataStore.open 10) [(1, 2), (3, 4), (5, 6)] [0] 2 (3, 3)
    (by decide) (by decide) (by decide) (by decide)
    (by intro j hj; simp at hj; subst hj; decide) (by rfl) (by rfl) (by rfl)
  exact ⟨h.2.1, h.2.2.1, h.2.2.2.2.1⟩

/-- Witness for C7 at a concrete input: two one-row blocks batched at
addresses 0 and 9, listed (to populate the cache), then merged: the merge
returns the fresh address 18 and `list 18` holds both rows. -/
theorem c7_merge_compaction_witness :
    DataMerge.batch
        (((((DataStore.batch ((DataStore.batch (DataStore.open 10) [(5, 6)]).2)
          [(7, 8)]).2).list 0).2.list 9).2) [((1, 1), 7)] =
      (.ok 7, ((((DataStore.batch ((DataStore.batch (DataStore.open 10) [(5, 6)]).2)
          [(7, 8)]).2).list 0).2.list 9).2) ∧
    (DataMerge.batch
        (((((DataStore.batch ((DataStore.batch (DataStore.open 10) [(5, 6)]).2)
          [(7, 8)]).2).list 0).2.list 9).2) [((5, 5), 0), ((7, 7), 9)]).1 = .ok 18 := by
  have h := c7_merge_compaction
    (((((DataStore.batch ((DataStore.batch (DataStore.open 10) [(5, 6)]).2)
      [(7, 8)]).2).list 0).2.list 9).2)
    ((1, 1), 7) ((5, 5), 0) ((7, 7), 9) (5, 6, (1, 0)) (7, 8, (10, 0))
    (by rfl) (by rfl) (by decide) (by decide) (by decide) (by rfl)
  exact ⟨h.1, h.2.1⟩

/-! ## Claim C3 — fresh-cache round-trip: Block-level lemmas -/

theorem markLoop_data : ∀ (c i : Nat) (b : Block), (Block.markLoop b i c).data = b.data := by
  intro c
  induction c with
  | zero => intro i b; rfl
  | succ c ih =>
    intro i b
    simp only [Block.markLoop]
    exact ih (i + 1) _

theorem getBit_markLoop (j : Nat) : ∀ (c i : Nat) (b : Block),
    i + c ≤ 8 * b.mask.length →
    getBitB (Block.markLoop b i c).mask j =
      (getBitB b.mask j || decide (i ≤ j ∧ j < i + c)) := by
  intro c
  induction c with
  | zero =>
    intro i b hb
    have hd : decide (i ≤ j ∧ j < i + 0) = false := by
      rw [decide_eq_false_iff_not]
      omega
    rw [hd, Bool.or_false]
    rfl
  | succ c ih =>
    intro i b hb
    simp only [Block.markLoop]
    have hlen : (setBitB b.mask i).length = b.mask.length := by
      simp [setBitB]
    rw [ih (i + 1) _ (by rw [hlen] at *; omega)]
    by_cases hij : j = i
    · subst hij
      have hi8 : j / 8 < b.mask.length := by omega
      rw [getBitB_setBitB_self hi8]
      have h1 : decide (j ≤ j ∧ j < j + (c + 1)) = true := by
        rw [decide_eq_true_eq]
        omega
      rw [h1]
      simp
    · rw [getBitB_setBitB_ne hij]
      congr 1
      rw [decide_eq_decide]
      omega

theorem data_new_write (S off : Nat) (slice : List Nat) :
    ((Block.new S).write off slice).data = setSlice (List.replicate S 0) off slice := by
  unfold Block.write
  rw [markLoop_data]
  rfl

theorem data_new_write_length (S off : Nat) (slice : List Nat) :
    ((Block.new S).write off slice).data.length = S := by
  rw [data_new_write, length_setSlice, List.length_replicate]

theorem getBit_new_write (S off : Nat) (slice : List Nat)
    (hfit : off + slice.length ≤ S) (j : Nat) :
    getBitB ((Block.new S).write off slice).mask j =
      decide (off ≤ j ∧ j < off + slice.length) := by
  unfold Block.write
  rw [getBit_markLoop j slice.length off _ (by simp [Block.new]; omega)]
  show (getBitB (List.replicate ((S + 7) / 8) 0) j || _) = _
  rw [getBitB_replicate_zero, Bool.false_or]

theorem have_all_new_write (S off : Nat) (slice : List Nat)
    (hfit : off + slice.length ≤ S) :
    ((Block.new S).write off slice).have_all off (off + slice.length) = true := by
  unfold Block.have_all
  have hbits : Block.allBits ((Block.new S).write off slice).mask off
      (off + slice.length) = true := by
    unfold Block.allBits
    rw [List.all_eq_true]
    intro k hk
    rw [List.mem_range'] at hk
    rw [getBit_new_write S off slice hfit k, decide_eq_true_eq]
    omega
  rw [hbits, Bool.or_true]

theorem missing_new_write_zero_iff (S off : Nat) (slice : List Nat)
    (hfit : off + slice.length ≤ S) :
    ((Block.new S).write off slice).missing = 0 ↔ off = 0 ∧ slice.length = S := by
  have hinv := @blockWInv_write (Block.new S) off slice
    (blockWInv_new S) (by simp [Block.new]; omega)
  rw [hinv.2.2, data_new_write_length, List.countP_eq_zero]
  constructor
  · intro h
    by_cases hS0 : S = 0
    · subst hS0
      omega
    · have hoff : off = 0 := by
        by_contra hoff
        have h0 := h 0 (by simp [List.mem_range]; omega)
        rw [getBit_new_write S off slice hfit 0] at h0
        simp at h0
        omega
      subst hoff
      refine ⟨rfl, ?_⟩
      by_contra hlen
      have hl := h slice.length (by simp [List.mem_range]; omega)
      rw [getBit_new_write S 0 slice hfit slice.length] at hl
      simp at hl
  · intro ⟨h0, hl⟩ x hx
    rw [List.mem_range] at hx
    rw [getBit_new_write S off slice hfit x]
    simp
    omega

theorem writesLoop_skip_zeros (data mask : List Nat) :
    ∀ (c1 : Nat) (c2 i off : Nat) (acc : List (Nat × List Nat)),
      (∀ k, i ≤ k → k < i + c1 → getBitB mask k = false) →
      Block.writesLoop data mask i (c1 + c2) off false acc =
        Block.writesLoop data mask (i + c1) c2 off false acc := by
  intro c1
  induction c1 with
  | zero =>
    intro c2 i off acc hbit
    rw [Nat.zero_add, Nat.add_zero]
  | succ c1 ih =>
    intro c2 i off acc hbit
    have hc : c1 + 1 + c2 = (c1 + c2) + 1 := by omega
    rw [hc]
    simp only [Block.writesLoop]
    rw [hbit i (by omega) (by omega)]
    simp only [Bool.false_and, Bool.not_false, Bool.and_false, if_false,
      Bool.false_eq_true]
    rw [ih c2 (i + 1) off acc (by intro k h1 h2; exact hbit k (by omega) (by omega))]
    have hi : i + 1 + c1 = i + (c1 + 1) := by omega
    rw [hi]

theorem writesLoop_skip_ones (data mask : List Nat) :
    ∀ (c1 : Nat) (c2 i off : Nat) (acc : List (Nat × List Nat)),
      (∀ k, i ≤ k → k < i + c1 → getBitB mask k = true) →
      Block.writesLoop data mask i (c1 + c2) off true acc =
        Block.writesLoop data mask (i + c1) c2 off true acc := by
  intro c1
  induction c1 with
  | zero =>
    intro c2 i off acc hbit
    rw [Nat.zero_add, Nat.add_zero]
  | succ c1 ih =>
    intro c2 i off acc hbit
    have hc : c1 + 1 + c2 = (c1 + c2) + 1 := by omega
    rw [hc]
    simp only [Block.writesLoop]
    rw [hbit i (by omega) (by omega)]
    simp only [Bool.not_true, Bool.and_false, Bool.true_and, Bool.false_and, if_false,
      Bool.false_eq_true]
    rw [ih c2 (i + 1) off acc (by intro k h1 h2; exact hbit k (by omega) (by omega))]
    have hi : i + 1 + c1 = i + (c1 + 1) := by omega
    rw [hi]

/-- `Block::writes` of a fresh block holding one non-empty in-bounds
slice: exactly one coalesced sub-range, the slice at its local offset. -/
theorem writes_new_write (S off : Nat) (slice : List Nat)
    (hn : 0 < slice.length) (hfit : off + slice.length ≤ S) :
    ((Block.new S).write off slice).writes = [(off, slice)] := by
  set blk := (Block.new S).write off slice with hblk
  have hdata : blk.data = setSlice (List.replicate S 0) off slice :=
    data_new_write S off slice
  have hdl : blk.data.length = S := data_new_write_length S off slice
  have hbit : ∀ j, getBitB blk.mask j = decide (off ≤ j ∧ j < off + slice.length) :=
    getBit_new_write S off slice hfit
  have hext : (blk.data.drop off).take slice.length = slice := by
    rw [hdata]
    exact setSlice_extract (by simp; omega)
  unfold Block.writes
  by_cases hm : blk.missing = 0
  · rw [if_pos (by simp [hm])]
    have hiff := (missing_new_write_zero_iff S off slice hfit).mp hm
    have hoff : off = 0 := hiff.1
    have hlen : slice.length = S := hiff.2
    subst hoff
    have : blk.data = slice := by
      rw [hdata, setSlice_eq_append (by simp; omega)]
      simp [hlen]
    rw [this]
  · rw [if_neg (by simp [hm])]
    rw [hdl]
    obtain ⟨n', hn'⟩ : ∃ n', slice.length = n' + 1 := ⟨slice.length - 1, by omega⟩
    obtain ⟨t, hsplit⟩ : ∃ t, S = off + (slice.length + t) :=
      ⟨S - off - slice.length, by omega⟩
    rw [show (Block.writesLoop blk.data blk.mask 0 S 0 false [] : List (Nat × List Nat)) =
        Block.writesLoop blk.data blk.mask 0 (off + (slice.length + t)) 0 false [] from by
      rw [← hsplit]]
    rw [writesLoop_skip_zeros blk.data blk.mask off (slice.length + t) 0 0 []
      (by intro k h1 h2
          rw [hbit k, decide_eq_false_iff_not]
          omega)]
    rw [Nat.zero_add]
    rw [show slice.length + t = (n' + t) + 1 from by omega]
    simp only [Block.writesLoop]
    rw [hbit off]
    rw [show decide (off ≤ off ∧ off < off + slice.length) = true from by
      rw [decide_eq_true_eq]; omega]
    simp only [Bool.not_false, Bool.and_true, Bool.true_and, if_true, Bool.and_self]
    rw [writesLoop_skip_ones blk.data blk.mask n' t (off + 1) off []
      (by intro k h1 h2
          rw [hbit k, decide_eq_true_eq]
          omega)]
    rw [show off + 1 + n' = off + slice.length from by omega]
    cases t with
    | zero =>
      simp only [Block.writesLoop]
      rw [hdl]
      rw [show decide (off < S) = true from by rw [decide_eq_true_eq]; omega]
      simp only [Bool.and_self, if_true]
      have hdrop : blk.data.drop off = slice := by
        rw [hdata, setSlice_eq_append (by simp; omega)]
        rw [List.take_replicate, List.drop_replicate]
        rw [show min off S = off from by omega, show S - (off + slice.length) = 0 from by
          omega]
        simp only [List.replicate_zero, List.append_nil]
        rw [@List.drop_left' _ (List.replicate off 0) _ _ (by simp)]
      rw [hdrop]
      rfl
    | succ t' =>
      simp only [Block.writesLoop]
      rw [hbit (off + slice.length)]
      rw [show decide (off ≤ off + slice.length ∧
            off + slice.length < off + slice.length) = false from by
        rw [decide_eq_false_iff_not]; omega]
      simp only [Bool.false_and, Bool.not_false, Bool.and_true, if_false, if_true,
        Bool.false_eq_true]
      rw [show off + slice.length - off = slice.length from by omega, hext]
      rw [show t' = t' + 0 from by omega]
      rw [writesLoop_skip_zeros blk.data blk.mask t' 0 (off + slice.length + 1) off
        ([] ++ [(off, slice)])
        (by intro k h1 h2
            rw [hbit k, decide_eq_false_iff_not]
            omega)]
      simp only [Block.writesLoop]
      simp

/-! ## Claim C3 — fresh-cache round-trip: write-map shape -/

theorem alistRemove_of_absent {α : Type} (l : List (Nat × α)) (k : Nat)
    (h : ∀ e ∈ l, e.1 ≠ k) : alistRemove l k = l := by
  unfold alistRemove
  rw [List.filter_eq_self]
  intro e he
  simpa using h e he

theorem alistGet_of_absent {α : Type} (l : List (Nat × α)) (k : Nat)
    (h : ∀ e ∈ l, e.1 ≠ k) : alistGet l k = none := by
  unfold alistGet
  rw [List.find?_eq_none.mpr (by intro e he; simpa using h e he)]
  rfl

theorem alistGet_append_of_absent {α : Type} (l1 l2 : List (Nat × α)) (k : Nat)
    (h : ∀ e ∈ l1, e.1 ≠ k) :
    alistGet (l1 ++ l2) k = alistGet l2 k := by
  unfold alistGet
  rw [List.find?_append]
  rw [List.find?_eq_none.mpr (by intro e he; simpa using h e he)]
  rfl

theorem wseq_keys_lb (O : Nat) (D : List Nat) (S : Nat) :
    ∀ (c i d : Nat) (e : Nat × Block), e ∈ wseq O D S i c d → i * S ≤ e.1 := by
  intro c
  induction c with
  | zero =>
    intro i d e he
    simp [wseq] at he
  | succ c ih =>
    intro i d e he
    simp only [wseq] at he
    rcases List.mem_append.mp he with h | h
    · have := ih (i + 1) _ e h
      have hs : (i + 1) * S = i * S + S := Nat.succ_mul i S
      omega
    · simp only [List.mem_singleton] at h
      subst h
      exact Nat.le_refl _

/-- One fresh-key segment of `BlockCache::write`: a cold cache entry is a
fresh `Block::new` holding the slice, consed onto the write map. -/
theorem writeSeg_fresh (st : BlockCache) (b b_start : Nat) (slice : List Nat)
    (hr : st.reads = []) (hw : ∀ e ∈ st.writes, e.1 ≠ b) :
    st.writeSeg b b_start slice =
      { st with writes := (b, (Block.new st.size).write b_start slice) :: st.writes } := by
  have hgr : alistGet st.reads b = none := by rw [hr]; rfl
  simp only [BlockCache.writeSeg, alistGet_of_absent st.writes b hw, hgr]
  unfold alistPut
  rw [alistRemove_of_absent st.writes b hw]

/-- The write loop of `BlockCache::write` on a cache whose write map holds
only keys below the first visited block address: it prepends exactly the
`wseq` blocks. -/
theorem writeLoop_fresh (O : Nat) (D : List Nat) :
    ∀ (c i d : Nat) (st : BlockCache), st.reads = [] → 0 < st.size →
      (∀ e ∈ st.writes, e.1 < i * st.size) →
      BlockCache.writeLoop O D i c d st =
        { st with writes := wseq O D st.size i c d ++ st.writes } := by
  intro c
  induction c with
  | zero =>
    intro i d st hr hS hw
    show st = _
    simp only [wseq, List.nil_append]
  | succ c ih =>
    intro i d st hr hS hw
    simp only [BlockCache.writeLoop]
    rw [writeSeg_fresh st (i * st.size) _ _ hr
      (by intro e he; have := hw e he; omega)]
    refine Eq.trans (ih (i + 1) _ _ hr hS ?_) ?_
    · intro e he
      simp only [List.mem_cons] at he
      have hs : (i + 1) * st.size = i * st.size + st.size := Nat.succ_mul i st.size
      show e.1 < (i + 1) * st.size
      rcases he with h | h
      · subst h
        show i * st.size < (i + 1) * st.size
        omega
      · have := hw e h
        omega
    · simp only [wseq]
      rw [List.append_assoc, List.singleton_append]

/-- `BlockCache::write(O, D)` on a fresh cache: the store is untouched and
the write map becomes exactly the `wseq` blocks (newest first). -/
theorem write_fresh (store0 : Store) (S O : Nat) (D : List Nat) (hS : 0 < S) :
    (BlockCache.new store0 S).write O D =
      { store := store0, size := S, reads := [],
        writes := wseq O D S (O / S) ((O + D.length + S - 1) / S - O / S) 0 } := by
  unfold BlockCache.write
  show BlockCache.writeLoop O D (O / S) ((O + D.length + S - 1) / S - O / S) 0
    (BlockCache.new store0 S) = _
  rw [writeLoop_fresh O D ((O + D.length + S - 1) / S - O / S) (O / S) 0
    (BlockCache.new store0 S) rfl hS (by intro e he; simp [BlockCache.new] at he)]
  show BlockCache.mk store0 S []
      (wseq O D S (O / S) ((O + D.length + S - 1) / S - O / S) 0 ++
        ([] : List (Nat × Block))) = _
  rw [List.append_nil]

/-! ## Claim C3 — fresh-cache round-trip: pre-commit read-back -/

theorem nat_min_fact (a b : Nat) :
    (a.min b ≤ a ∧ a.min b ≤ b) ∧ (a.min b = a ∨ a.min b = b) :=
  ⟨⟨Nat.min_le_left a b, Nat.min_le_right a b⟩, min_choice a b⟩

theorem nat_max_fact (a b : Nat) :
    (a ≤ a.max b ∧ b ≤ a.max b) ∧ (a.max b = a ∨ a.max b = b) :=
  ⟨⟨Nat.le_max_left a b, Nat.le_max_right a b⟩, max_choice a b⟩

theorem setSlice_fill (l : List Nat) (d m : Nat) (h : d + m ≤ l.length) :
    setSlice (l.take d ++ List.replicate (l.length - d) 0) d ((l.drop d).take m) =
      l.take (d + m) ++ List.replicate (l.length - (d + m)) 0 := by
  have hlen1 : (l.take d).length = d := by
    rw [List.length_take]
    exact min_eq_left (by omega)
  have hm : ((l.drop d).take m).length = m := by
    rw [List.length_take, List.length_drop]
    exact min_eq_left (by omega)
  rw [setSlice_eq_append (by
    rw [hm, List.length_append, hlen1, List.length_replicate]
    omega)]
  rw [hm]
  rw [List.take_left' hlen1]
  rw [List.drop_append_eq_append_drop]
  rw [@List.drop_eq_nil_of_le _ (l.take d) _ (by rw [hlen1]; omega)]
  rw [hlen1, List.nil_append]
  rw [show d + m - d = m from by omega]
  rw [List.drop_replicate]
  rw [show l.length - d - m = l.length - (d + m) from by omega]
  rw [List.take_add]

/-- The first read loop over the segments just written to a fresh cache:
every segment finds its fully known pending block and copies its slice,
yielding exactly `D` with no queued fetches. -/
theorem readLoop1_fresh_write (st1 : BlockCache) (O : Nat) (D : List Nat)
    (hS : 0 < st1.size) :
    ∀ (c i d : Nat) (suffix : List (Nat × Block))
      (rds : List (Nat × (Nat × Nat) × Bool)),
      st1.writes = wseq O D st1.size i c d ++ suffix →
      d = (O + D.length).min (i * st1.size) - O →
      O < (i + 1) * st1.size →
      O + D.length ≤ (i + c) * st1.size →
      BlockCache.readLoop1 st1 O D.length i c d
        (D.take d ++ List.replicate (D.length - d) 0) rds = (D, rds) := by
  intro c
  induction c with
  | zero =>
    intro i d suffix rds hw hd hOi hend
    show (D.take d ++ List.replicate (D.length - d) 0, rds) = (D, rds)
    have h0 : (i + 0) * st1.size = i * st1.size := by rw [Nat.add_zero]
    have hf4 := nat_min_fact (O + D.length) (i * st1.size)
    have hdn : d = D.length := by omega
    rw [hdn]
    simp
  | succ c ih =>
    intro i d suffix rds hw hd hOi hend
    have hmul1 : (i + 1) * st1.size = i * st1.size + st1.size := Nat.succ_mul i st1.size
    have hmul2 : (i + 1 + 1) * st1.size = (i + 1) * st1.size + st1.size :=
      Nat.succ_mul (i + 1) st1.size
    have hshift : i + (c + 1) = (i + 1) + c := by omega
    rw [hshift] at hend
    simp only [BlockCache.readLoop1]
    set bs := O.max (i * st1.size) - i * st1.size with hbs
    set bl := (O + D.length - i * st1.size).min ((st1.size - bs).min D.length) with hbl
    have hget : alistGet st1.writes (i * st1.size) =
        some ((Block.new st1.size).write bs ((D.drop d).take bl)) := by
      rw [hw]
      simp only [wseq]
      rw [← hbs, ← hbl]
      rw [List.append_assoc,
        alistGet_append_of_absent _ _ _ (by
          intro e he
          have hlb := wseq_keys_lb O D st1.size c (i + 1) _ e he
          omega),
        List.singleton_append]
      simp [alistGet, List.find?]
    have hf1 := nat_max_fact O (i * st1.size)
    have hf2 := nat_min_fact (st1.size - bs) D.length
    have hf3 := nat_min_fact (O + D.length - i * st1.size) ((st1.size - bs).min D.length)
    have hf4 := nat_min_fact (O + D.length) (i * st1.size)
    have hf5 := nat_min_fact (O + D.length) ((i + 1) * st1.size)
    have hdbl : d + bl ≤ D.length := by omega
    have hbsS : bs + bl ≤ st1.size := by omega
    have hslicelen : ((D.drop d).take bl).length = bl := by
      rw [List.length_take, List.length_drop]
      exact min_eq_left (by omega)
    have hall := have_all_new_write st1.size bs ((D.drop d).take bl)
      (by rw [hslicelen]; exact hbsS)
    rw [hslicelen] at hall
    have hw' : st1.writes = wseq O D st1.size (i + 1) c (d + bl) ++
        ((i * st1.size, (Block.new st1.size).write bs ((D.drop d).take bl)) :: suffix) := by
      rw [hw]
      simp only [wseq]
      rw [← hbs, ← hbl]
      rw [List.append_assoc, List.singleton_append]
    have hd' : d + bl = (O + D.length).min ((i + 1) * st1.size) - O := by omega
    have hOi' : O < (i + 1 + 1) * st1.size := by omega
    have hdataeq : ((((Block.new st1.size).write bs ((D.drop d).take bl)).data.drop
        bs).take bl) = (D.drop d).take bl := by
      rw [data_new_write]
      have h1 := @setSlice_extract _ (List.replicate st1.size 0) bs
        ((D.drop d).take bl) (by rw [hslicelen]; simp; omega)
      rw [hslicelen] at h1
      exact h1
    simp only [hget]
    rw [if_pos hall]
    rw [hdataeq]
    rw [setSlice_fill D d bl hdbl]
    exact ih (i + 1) (d + bl) _ rds hw' hd' hOi' hend

/-- `BlockCache::read` immediately after a fresh-cache `write(O, D)`:
returns exactly `D` and leaves the cache untouched. -/
theorem read_fresh_write (store0 : Store) (S O : Nat) (D : List Nat) (hS : 0 < S) :
    ((BlockCache.new store0 S).write O D).read O D.length =
      some (D, (BlockCache.new store0 S).write O D) := by
  rw [write_fresh store0 S O D hS]
  set st1 : BlockCache := BlockCache.mk store0 S []
    (wseq O D S (O / S) ((O + D.length + S - 1) / S - O / S) 0) with hst1
  have hp : BlockCache.readLoop1 st1 O D.length (O / st1.size)
      ((O + D.length + st1.size - 1) / st1.size - O / st1.size) 0
      (List.replicate D.length 0) [] = (D, []) := by
    have h0 : (List.replicate D.length (0 : Nat)) =
        D.take 0 ++ List.replicate (D.length - 0) 0 := by simp
    rw [h0]
    refine readLoop1_fresh_write st1 O D hS _ (O / st1.size) 0 [] [] ?_ ?_ ?_ ?_
    · show wseq O D S (O / S) ((O + D.length + S - 1) / S - O / S) 0 =
        wseq O D st1.size (O / st1.size)
          ((O + D.length + st1.size - 1) / st1.size - O / st1.size) 0 ++ []
      rw [List.append_nil]
    · show (0 : Nat) = (O + D.length).min (O / S * S) - O
      have hds : O / S * S ≤ O := Nat.div_mul_le_self O S
      have hf := nat_min_fact (O + D.length) (O / S * S)
      omega
    · show O < (O / S + 1) * S
      have hdm := Nat.div_add_mod O S
      have hml : O % S < S := Nat.mod_lt O hS
      have hsm : (O / S + 1) * S = O / S * S + S := Nat.succ_mul (O / S) S
      have hcm : S * (O / S) = O / S * S := Nat.mul_comm S (O / S)
      omega
    · show O + D.length ≤
        (O / S + ((O + D.length + S - 1) / S - O / S)) * S
      have hle : O / S ≤ (O + D.length + S - 1) / S :=
        Nat.div_le_div_right (by omega)
      rw [show O / S + ((O + D.length + S - 1) / S - O / S) =
        (O + D.length + S - 1) / S from by omega]
      have hdm := Nat.div_add_mod (O + D.length + S - 1) S
      have hml : (O + D.length + S - 1) % S < S := Nat.mod_lt _ hS
      have hcm : S * ((O + D.length + S - 1) / S) =
        (O + D.length + S - 1) / S * S := Nat.mul_comm _ _
      omega
  simp only [BlockCache.read, hp, List.isEmpty_nil, if_true]

/-- Reading a just-written range straight from the backing store returns
exactly the written bytes. -/
theorem store_read_write_exact (s : Store) (O : Nat) (D : List Nat) :
    (s.write O D).read O D.length = D := by
  simp only [Store.write, Store.read]
  rw [List.append_assoc]
  have hT : ((s.bytes ++ List.replicate (O + D.length - s.bytes.length) 0).take O).length
      = O := by
    rw [List.length_take]
    exact min_eq_left (by rw [List.length_append, List.length_replicate]; omega)
  rw [List.drop_left' hT]
  rw [List.take_left' rfl]

/-! ## Claim C3 — fresh-cache round-trip: ascending-order commit -/

/-- Folding `commitStep` over the ascending remainder of the pending
blocks of one contiguous fresh-cache write: each block contributes its
single local-offset-0 sub-range, which commit concatenates onto the
single accumulated write starting at `O`. -/
theorem commitPlan_fold_wseq (O : Nat) (D : List Nat) (S : Nat) (hS : 0 < S)
    (hD : 0 < D.length) :
    ∀ (c i d : Nat),
      O ≤ i * S →
      d = (O + D.length).min (i * S) - O →
      O + D.length ≤ (i + c) * S →
      (0 < c → (i + c - 1) * S < O + D.length) →
      List.foldl (fun plan e => BlockCache.commitStep plan e.1 e.2)
        [(O, D.take d)] (wseq O D S i c d).reverse = [(O, D)] := by
  intro c
  induction c with
  | zero =>
    intro i d hOle hd hend hlast
    simp only [wseq, List.reverse_nil, List.foldl_nil]
    have h0 : (i + 0) * S = i * S := by rw [Nat.add_zero]
    have hf := nat_min_fact (O + D.length) (i * S)
    have hdn : d = D.length := by omega
    rw [hdn, List.take_length]
  | succ c ih =>
    intro i d hOle hd hend hlast
    have hmul1 : (i + 1) * S = i * S + S := Nat.succ_mul i S
    have hshift : i + (c + 1) = (i + 1) + c := by omega
    rw [hshift] at hend
    have hlast' : (i + c) * S < O + D.length := by
      have h := hlast (by omega)
      rw [show i + (c + 1) - 1 = i + c from by omega] at h
      exact h
    have hile : i * S ≤ (i + c) * S := Nat.mul_le_mul_right S (by omega)
    have hiS : i * S < O + D.length := by omega
    simp only [wseq]
    have hbs0 : O.max (i * S) - i * S = 0 := by
      have hf1 := nat_max_fact O (i * S)
      omega
    rw [hbs0]
    set bl := (O + D.length - i * S).min ((S - 0).min D.length) with hbl
    have hf2 := nat_min_fact (S - 0) D.length
    have hf3 := nat_min_fact (O + D.length - i * S) ((S - 0).min D.length)
    have hf4 := nat_min_fact (O + D.length) (i * S)
    have hf5 := nat_min_fact (O + D.length) ((i + 1) * S)
    have hdbl : d + bl ≤ D.length := by omega
    have hblpos : 0 < bl := by omega
    have hslicelen : ((D.drop d).take bl).length = bl := by
      rw [List.length_take, List.length_drop]
      exact min_eq_left (by omega)
    rw [List.reverse_append, List.reverse_singleton, List.singleton_append,
      List.foldl_cons]
    have hw := writes_new_write S 0 ((D.drop d).take bl)
      (by rw [hslicelen]; omega) (by rw [hslicelen]; omega)
    have hcs : BlockCache.commitStep [(O, D.take d)] (i * S)
        ((Block.new S).write 0 ((D.drop d).take bl)) = [(O, D.take (d + bl))] := by
      simp only [BlockCache.commitStep, hw, List.isEmpty_cons, Bool.false_eq_true,
        if_false, List.foldl_cons, List.foldl_nil]
      rw [if_pos trivial]
      show [] ++ [(O, D.take d ++ (D.drop d).take bl)] = _
      rw [List.nil_append, ← List.take_add]
    simp only [hcs]
    refine ih (i + 1) (d + bl) (by omega) (by omega) hend ?_
    intro hc
    rw [show (i + 1) + c - 1 = i + c from by omega]
    exact hlast'

/-- `commit` of one contiguous fresh-cache `write(O, D)`, with the pending
blocks iterated in ascending block-address order: the coalesced physical
write list is the single write `(O, D)`. -/
theorem commitPlan_fresh_write (store0 : Store) (S O : Nat) (D : List Nat)
    (hS : 0 < S) (hD : 0 < D.length) :
    BlockCache.commitPlan (((BlockCache.new store0 S).write O D).writes.reverse) =
      [(O, D)] := by
  rw [write_fresh store0 S O D hS]
  show BlockCache.commitPlan
    ((wseq O D S (O / S) ((O + D.length + S - 1) / S - O / S) 0).reverse) = [(O, D)]
  have hds : O / S * S ≤ O := Nat.div_mul_le_self O S
  have hdm := Nat.div_add_mod O S
  have hml : O % S < S := Nat.mod_lt O hS
  have hle : O / S ≤ (O + D.length + S - 1) / S := Nat.div_le_div_right (by omega)
  have hdm2 := Nat.div_add_mod (O + D.length + S - 1) S
  have hml2 : (O + D.length + S - 1) % S < S := Nat.mod_lt _ hS
  have hstop1 : O / S + 1 ≤ (O + D.length + S - 1) / S := by
    have h1 : (O + S) / S = O / S + 1 := Nat.add_div_right O hS
    have h2 : (O + S) / S ≤ (O + D.length + S - 1) / S :=
      Nat.div_le_div_right (by omega)
    omega
  set Q := O / S with hQdef
  set T := (O + D.length + S - 1) / S with hTdef
  clear_value Q T
  have hsm : (Q + 1) * S = Q * S + S := Nat.succ_mul Q S
  have hcm : S * Q = Q * S := Nat.mul_comm S Q
  have hcm2 : S * T = T * S := Nat.mul_comm S T
  obtain ⟨c2, hc2⟩ : ∃ c2, T - Q = c2 + 1 := ⟨T - Q - 1, by omega⟩
  rw [hc2]
  simp only [wseq]
  have hbs0 : O.max (Q * S) - Q * S = O - Q * S := by
    have hf1 := nat_max_fact O (Q * S)
    omega
  rw [hbs0]
  set bl0 := (O + D.length - Q * S).min ((S - (O - Q * S)).min D.length) with hbl0
  have hf2 := nat_min_fact (S - (O - Q * S)) D.length
  have hf3 := nat_min_fact (O + D.length - Q * S) ((S - (O - Q * S)).min D.length)
  have hbl0pos : 0 < bl0 := by omega
  have hdbl0 : bl0 ≤ D.length := by omega
  have hsl0 : ((D.drop 0).take bl0).length = bl0 := by
    rw [List.length_take, List.length_drop]
    exact min_eq_left (by omega)
  rw [List.reverse_append, List.reverse_singleton, List.singleton_append]
  unfold BlockCache.commitPlan
  rw [List.foldl_cons]
  have hw0 := writes_new_write S (O - Q * S) ((D.drop 0).take bl0)
    (by rw [hsl0]; omega) (by rw [hsl0]; omega)
  have hcs0 : BlockCache.commitStep [] (Q * S)
      ((Block.new S).write (O - Q * S) ((D.drop 0).take bl0)) =
      [(O, D.take bl0)] := by
    simp only [BlockCache.commitStep, hw0, List.isEmpty_nil, if_true, List.map_cons,
      List.map_nil]
    rw [show O - Q * S + Q * S = O from by omega]
    rw [List.drop_zero]
  simp only [hcs0]
  rw [show (0 : Nat) + bl0 = bl0 from by rw [Nat.zero_add]]
  refine commitPlan_fold_wseq O D S hS hD c2 (Q + 1) bl0 (by omega) ?_ ?_ ?_
  · have hf5 := nat_min_fact (O + D.length) ((Q + 1) * S)
    omega
  · rw [show Q + 1 + c2 = T from by omega]
    omega
  · intro hc
    rw [show Q + 1 + c2 - 1 = T - 1 from by omega]
    obtain ⟨T2, hT2⟩ : ∃ T2, T = T2 + 1 := ⟨T - 1, by omega⟩
    rw [hT2]
    rw [show T2 + 1 - 1 = T2 from by omega]
    rw [hT2] at hdm2 hcm2
    have hsm2 : (T2 + 1) * S = T2 * S + S := Nat.succ_mul T2 S
    omega

/-- Claim C3 (amended): for every non-empty byte string `D` and offset
`O`, writing `D` at `O` through a FRESH block cache (block size `S > 0`)
and reading `[O, O + len D)` before any commit returns exactly `D` with
the cache unchanged; and when commit iterates the pending blocks in
ascending block-address order (the `HashMap` iteration order is
unspecified; a different order loses data — see the counterexample), the
coalesced physical write list is the single write `(O, D)`, so after the
commit the backing store holds `D` at `O` and reading that range from the
store directly returns `D`.  The original claim's unrestricted cache
state and iteration order are refuted by the C3 counterexample. -/
theorem c3_cache_roundtrip (store0 : Store) (S O : Nat) (D : List Nat)
    (hS : 0 < S) (hD : 0 < D.length) :
    ((BlockCache.new store0 S).write O D).read O D.length =
      some (D, (BlockCache.new store0 S).write O D) ∧
    BlockCache.commitPlan (((BlockCache.new store0 S).write O D).writes.reverse) =
      [(O, D)] ∧
    (((BlockCache.new store0 S).write O D).commitWith
        (((BlockCache.new store0 S).write O D).writes.reverse)).store =
      store0.write O D ∧
    (store0.write O D).read O D.length = D := by
  refine ⟨read_fresh_write store0 S O D hS,
    commitPlan_fresh_write store0 S O D hS hD, ?_,
    store_read_write_exact store0 O D⟩
  have hst : ((BlockCache.new store0 S).write O D).store = store0 := by
    rw [write_fresh store0 S O D hS]
  simp only [BlockCache.commitWith, commitPlan_fresh_write store0 S O D hS hD,
    List.foldl_cons, List.foldl_nil, hst]

/-- Witness for C3 (amended) at a concrete input: block size 4, six bytes
written at offset 2 over a two-byte store; the pre-commit read returns
the bytes, the ascending-order commit plan is the single write, and the
store read-back after the write is exact. -/
theorem c3_cache_roundtrip_witness :
    ((BlockCache.new ⟨[9, 9]⟩ 4).write 2 [1, 2, 3, 4, 5, 6]).read 2
        ([1, 2, 3, 4, 5, 6] : List Nat).length =
      some ([1, 2, 3, 4, 5, 6],
        (BlockCache.new ⟨[9, 9]⟩ 4).write 2 [1, 2, 3, 4, 5, 6]) ∧
    BlockCache.commitPlan
        (((BlockCache.new ⟨[9, 9]⟩ 4).write 2 [1, 2, 3, 4, 5, 6]).writes.reverse) =
      [(2, [1, 2, 3, 4, 5, 6])] ∧
    ((Store.mk [9, 9]).write 2 [1, 2, 3, 4, 5, 6]).read 2
        ([1, 2, 3, 4, 5, 6] : List Nat).length = [1, 2, 3, 4, 5, 6] := by
  have h := c3_cache_roundtrip ⟨[9, 9]⟩ 4 2 [1, 2, 3, 4, 5, 6] (by decide) (by decide)
  exact ⟨h.1, h.2.1, h.2.2.2⟩

end Eyros
